import Mathlib

/-!
Shallow embedding of `fuzzyreplacer.py` (the fuzzyreplacer repository).

Conventions of the embedding:
* Python floats are modelled as `ℚ`.  Every similarity value the program
  computes is a ratio `2*m/T` of natural numbers, and every comparison the
  claims depend on is a comparison of such ratios, so `ℚ` is exact here.
* Python `dict` values are modelled as ordered association lists with unique
  keys; `setdefault` and item assignment keep insertion order, as in CPython.
* Fallible code paths (the `assert v is not None` in `State.update`, attribute
  errors on `None`) are modelled with `Option`: `none` means the Python call
  raises.
* `difflib.SequenceMatcher` is instantiated by the source with `isjunk=None`
  on per-token strings; the model implements the documented no-junk behaviour
  (the `autojunk` popularity filter only acts on sequences of length >= 200,
  which does not change any ratio used by the theorems below).
* Python `re` word characters (`\w`) are modelled by ASCII alphanumerics and
  the underscore; all concrete inputs used by theorems are ASCII.
-/

namespace Fuzzy

/-- A word character for the tokenizing regex `(\W+)` of the source
(`SPLIT_REGEX`).  Python's `\w` (str pattern, no `re.ASCII`) is
Unicode-aware; this is its restriction to ASCII — alphanumeric or
underscore — and is exact on ASCII text.  Theorems that quantify over the
input string therefore carry the hypothesis that the input is ASCII. -/
def isWordChar (c : Char) : Bool :=
  c.isAlphanum || c == '_'

/-- Take the longest prefix of characters satisfying `p`; return it together
with the remainder of the list. -/
def takeRun (p : Char → Bool) : List Char → List Char × List Char
  | [] => ([], [])
  | c :: cs => if p c then
      let r := takeRun p cs
      (c :: r.1, r.2)
    else ([], c :: cs)

theorem takeRun_append (p : Char → Bool) : ∀ cs : List Char,
    (takeRun p cs).1 ++ (takeRun p cs).2 = cs := by
  intro cs
  induction cs with
  | nil => rfl
  | cons c cs ih =>
    by_cases h : p c
    · simp [takeRun, h, ih]
    · simp [takeRun, h]

theorem takeRun_snd_length (p : Char → Bool) : ∀ cs : List Char,
    (takeRun p cs).2.length ≤ cs.length := by
  intro cs
  induction cs with
  | nil => simp [takeRun]
  | cons c cs ih =>
    by_cases h : p c
    · simp only [takeRun, h, if_true]
      exact Nat.le_succ_of_le ih
    · simp [takeRun, h]

theorem takeRun_head_false (p : Char → Bool) : ∀ cs c rest,
    (takeRun p cs).2 = c :: rest → p c = false := by
  intro cs
  induction cs with
  | nil => intro c rest h; simp [takeRun] at h
  | cons a as ih =>
    intro c rest h
    by_cases hp : p a
    · simp only [takeRun, hp, if_true] at h
      exact ih c rest h
    · simp only [takeRun, hp, if_false] at h
      cases h
      simpa using hp

/-- Key step bound: after taking a word run and then a separator run, the
remaining characters are strictly fewer (provided the separator run is
taken from a nonempty list whose head is a separator). -/
theorem takeRun_two_lt (p : Char → Bool) (x : Char) (t : List Char)
    (hx : p x = true) :
    (takeRun p (x :: t)).2.length < (x :: t).length := by
  simp only [takeRun, hx, if_true]
  exact Nat.lt_succ_of_le (takeRun_snd_length _ t)

/-- Fuel-indexed body of `wordsSeps` (structural recursion so that concrete
inputs evaluate by kernel reduction); `fuel > cs.length` always suffices. -/
def wordsSepsF : ℕ → List Char → List (String × String)
  | 0, _ => []
  | fuel + 1, cs =>
    if (takeRun isWordChar cs).2 = [] then [(String.mk (takeRun isWordChar cs).1, "")]
    else
      (String.mk (takeRun isWordChar cs).1,
        String.mk (takeRun (fun c => !isWordChar c) (takeRun isWordChar cs).2).1) ::
        wordsSepsF fuel (takeRun (fun c => !isWordChar c) (takeRun isWordChar cs).2).2

theorem wordsSepsF_irrel : ∀ (f1 : ℕ), ∀ (f2 : ℕ) (cs : List Char),
    cs.length < f1 → cs.length < f2 → wordsSepsF f1 cs = wordsSepsF f2 cs := by
  intro f1
  induction f1 with
  | zero => intro f2 cs h1 _; omega
  | succ n ih =>
    intro f2 cs h1 h2
    match f2 with
    | 0 => omega
    | m + 1 =>
      simp only [wordsSepsF]
      by_cases hrest : (takeRun isWordChar cs).2 = []
      · simp [hrest]
      · simp only [hrest, if_false]
        rcases hr : (takeRun isWordChar cs).2 with _ | ⟨c, t⟩
        · exact absurd hr hrest
        · have hc : isWordChar c = false := takeRun_head_false _ _ _ _ hr
          have hlt : (takeRun (fun ch => !isWordChar ch) (c :: t)).2.length < (c :: t).length :=
            takeRun_two_lt _ c t (by simp [hc])
          have hle : (c :: t).length ≤ cs.length := by
            conv_rhs => rw [← takeRun_append isWordChar cs]
            rw [hr]
            simp
          rw [ih m ((takeRun (fun ch => !isWordChar ch) (c :: t)).2)
            (by omega) (by omega)]

/-- The word/separator decomposition performed by
`SPLIT_REGEX.split(s)` + `words_and_spaces[::2]` / `[1::2] + ['']` in
`FuzzyReplacer.process`: the input is cut into pairs (word, following
separator); the last separator is the empty string, and the first word is
empty when the text starts with a separator.  `re.split` never returns an
empty list, so the `if not words_and_spaces` branch of the source is dead
and has no counterpart here. -/
def wordsSeps (cs : List Char) : List (String × String) :=
  wordsSepsF (cs.length + 1) cs

/-- Fuel-indexed Python `str.split()` on a character list: maximal runs of
non-whitespace characters, whitespace runs discarded. -/
def pysplitCharsF : ℕ → List Char → List (List Char)
  | 0, _ => []
  | _ + 1, [] => []
  | fuel + 1, c :: cs =>
    if c.isWhitespace then pysplitCharsF fuel cs
    else
      (takeRun (fun ch => !ch.isWhitespace) (c :: cs)).1 ::
        pysplitCharsF fuel (takeRun (fun ch => !ch.isWhitespace) (c :: cs)).2

theorem pysplitCharsF_irrel : ∀ (f1 : ℕ), ∀ (f2 : ℕ) (cs : List Char),
    cs.length < f1 → cs.length < f2 → pysplitCharsF f1 cs = pysplitCharsF f2 cs := by
  intro f1
  induction f1 with
  | zero => intro f2 cs h1 _; omega
  | succ n ih =>
    intro f2 cs h1 h2
    match f2 with
    | 0 => omega
    | m + 1 =>
      match cs with
      | [] => simp [pysplitCharsF]
      | c :: cs =>
        simp only [pysplitCharsF]
        by_cases hw : c.isWhitespace = true
        · rw [if_pos hw, if_pos hw]
          exact ih m cs (by simp at h1; omega) (by simp at h2; omega)
        · rw [if_neg hw, if_neg hw]
          have hlt : (takeRun (fun ch => !ch.isWhitespace) (c :: cs)).2.length
              < (c :: cs).length :=
            takeRun_two_lt _ c cs (by simp [hw])
          rw [ih m ((takeRun (fun ch => !ch.isWhitespace) (c :: cs)).2)
            (by simp at h1 hlt ⊢; omega) (by simp at h2 hlt ⊢; omega)]

/-- Python `str.split()` on a character list. -/
def pysplitChars (cs : List Char) : List (List Char) :=
  pysplitCharsF (cs.length + 1) cs

/-- Python `k.split()` as used by `dict_to_tree`. -/
def pysplit (s : String) : List String :=
  (pysplitChars s.data).map String.mk

/-- `FuzzyReplacer._default_normalize`.  The Python code applies Unicode NFKD
decomposition, encodes to ASCII ignoring errors, lowercases, and keeps only
alphabetic characters.  On ASCII input NFKD is the identity, so the model
drops every non-ASCII character, then lowercases and filters alphabetic
characters; it is exact on ASCII strings (all concrete inputs below). -/
def defaultNormalize (w : String) : String :=
  String.mk (((w.data.filter (fun c => c.toNat < 128)).map Char.toLower).filter Char.isAlpha)

/-! ## The similarity scorer (`difflib.SequenceMatcher`, no junk)

`word_matches` in `FuzzyReplacerHelper._consume` calls, in order,
`real_quick_ratio`, `quick_ratio` and `ratio` of a `SequenceMatcher` with
`seq1 = chunk` and `seq2 = word`.  The source uses the default
`autojunk=True`, whose popularity filter only activates when `seq2` has at
least 200 characters; the model omits the filter, and theorems that
quantify over the input string carry the hypothesis that every normalized
token is shorter than 200 characters, where the model is exact.
Self-similarity of a string is 1 with or without the filter. -/

/-- Length of the longest common prefix of two character lists. -/
def commonPrefixLen : List Char → List Char → ℕ
  | a :: as, b :: bs => if a = b then commonPrefixLen as bs + 1 else 0
  | _, _ => 0

/-- One candidate step of `find_longest_match`: a pair `(i, j)` proposes the
matching block starting at `a.drop i` / `b.drop j` of maximal run length;
the best triple `(i, j, k)` is replaced only by a strictly longer block, so
ties keep the earliest `i`, then the earliest `j` (the documented behaviour
of `difflib`). -/
def bestStep (a b : List Char) (best : ℕ × ℕ × ℕ) (ij : ℕ × ℕ) : ℕ × ℕ × ℕ :=
  let k := commonPrefixLen (a.drop ij.1) (b.drop ij.2)
  if best.2.2 < k then (ij.1, ij.2, k) else best

/-- `SequenceMatcher.find_longest_match` over whole sequences, with no junk:
the longest matching block, earliest in `a`, then earliest in `b`. -/
def find_longest_match (a b : List Char) : ℕ × ℕ × ℕ :=
  (List.range a.length).foldl
    (fun best i => (List.range b.length).foldl (fun best j => bestStep a b best (i, j)) best)
    (0, 0, 0)

/-- Invariance of a predicate under a left fold. -/
theorem foldl_inv {σ α : Type} (P : σ → Prop) (f : σ → α → σ) :
    ∀ (l : List α) (s : σ), P s → (∀ s a, a ∈ l → P s → P (f s a)) →
    P (l.foldl f s) := by
  intro l
  induction l with
  | nil => intro s hs _; exact hs
  | cons x xs ih =>
    intro s hs hstep
    exact ih (f s x) (hstep s x (by simp) hs)
      (fun s a ha hp => hstep s a (by simp [ha]) hp)

theorem commonPrefixLen_le_left : ∀ a b : List Char, commonPrefixLen a b ≤ a.length := by
  intro a
  induction a with
  | nil => intro b; cases b <;> simp [commonPrefixLen]
  | cons x xs ih =>
    intro b
    cases b with
    | nil => simp [commonPrefixLen]
    | cons y ys =>
      by_cases h : x = y
      · simpa [commonPrefixLen, h] using ih ys
      · simp [commonPrefixLen, h]

theorem commonPrefixLen_le_right : ∀ a b : List Char, commonPrefixLen a b ≤ b.length := by
  intro a
  induction a with
  | nil => intro b; cases b <;> simp [commonPrefixLen]
  | cons x xs ih =>
    intro b
    cases b with
    | nil => simp [commonPrefixLen]
    | cons y ys =>
      by_cases h : x = y
      · simpa [commonPrefixLen, h] using ih ys
      · simp [commonPrefixLen, h]

theorem commonPrefixLen_take : ∀ a b : List Char,
    a.take (commonPrefixLen a b) = b.take (commonPrefixLen a b) := by
  intro a
  induction a with
  | nil => intro b; cases b <;> simp [commonPrefixLen]
  | cons x xs ih =>
    intro b
    cases b with
    | nil => simp [commonPrefixLen]
    | cons y ys =>
      by_cases h : x = y
      · simp [commonPrefixLen, h, ih ys]
      · simp [commonPrefixLen, h]

/-- The well-formedness facts about a candidate triple of
`find_longest_match`: the block fits in both sequences and is a common
substring. -/
def flmP (a b : List Char) (t : ℕ × ℕ × ℕ) : Prop :=
  t.1 + t.2.2 ≤ a.length ∧ t.2.1 + t.2.2 ≤ b.length ∧
    (a.drop t.1).take t.2.2 = (b.drop t.2.1).take t.2.2

theorem bestStep_flmP (a b : List Char) (best : ℕ × ℕ × ℕ) (ij : ℕ × ℕ)
    (hi : ij.1 ≤ a.length) (hj : ij.2 ≤ b.length) (hb : flmP a b best) :
    flmP a b (bestStep a b best ij) := by
  unfold bestStep
  by_cases h : best.2.2 < commonPrefixLen (a.drop ij.1) (b.drop ij.2)
  · simp only [h, if_true]
    refine ⟨?_, ?_, ?_⟩
    · show ij.1 + commonPrefixLen (a.drop ij.1) (b.drop ij.2) ≤ a.length
      have := commonPrefixLen_le_left (a.drop ij.1) (b.drop ij.2)
      simp only [List.length_drop] at this
      omega
    · show ij.2 + commonPrefixLen (a.drop ij.1) (b.drop ij.2) ≤ b.length
      have := commonPrefixLen_le_right (a.drop ij.1) (b.drop ij.2)
      simp only [List.length_drop] at this
      omega
    · exact commonPrefixLen_take (a.drop ij.1) (b.drop ij.2)
  · simpa [h] using hb

theorem find_longest_match_flmP (a b : List Char) : flmP a b (find_longest_match a b) := by
  unfold find_longest_match
  refine foldl_inv (flmP a b) _ _ _ ?_ ?_
  · exact ⟨by simp, by simp, by simp⟩
  · intro s i hi hs
    refine foldl_inv (flmP a b) _ _ _ hs ?_
    intro s j hj hsj
    exact bestStep_flmP a b s (i, j)
      (le_of_lt (List.mem_range.mp hi)) (le_of_lt (List.mem_range.mp hj)) hsj

/-- Fuel-indexed total size of the matching blocks of
`get_matching_blocks`: recursive divide-and-conquer on the longest matching
block.  Only the total matters for `ratio`, so the block list itself is not
materialized.  `fuel >= a.length + b.length` always suffices. -/
def matchedTotalF : ℕ → List Char → List Char → ℕ
  | 0, _, _ => 0
  | fuel + 1, a, b =>
    if (find_longest_match a b).2.2 = 0 then 0
    else
      matchedTotalF fuel (a.take (find_longest_match a b).1)
          (b.take (find_longest_match a b).2.1) +
        (find_longest_match a b).2.2 +
        matchedTotalF fuel
          (a.drop ((find_longest_match a b).1 + (find_longest_match a b).2.2))
          (b.drop ((find_longest_match a b).2.1 + (find_longest_match a b).2.2))

theorem matchedTotalF_sub_bounds (a b : List Char)
    (hk : (find_longest_match a b).2.2 ≠ 0) :
    (a.take (find_longest_match a b).1).length +
        (b.take (find_longest_match a b).2.1).length + 1 ≤ a.length + b.length ∧
      (a.drop ((find_longest_match a b).1 + (find_longest_match a b).2.2)).length +
        (b.drop ((find_longest_match a b).2.1 + (find_longest_match a b).2.2)).length + 1
          ≤ a.length + b.length := by
  obtain ⟨h1, h2, _⟩ := find_longest_match_flmP a b
  have hk1 : 1 ≤ (find_longest_match a b).2.2 := Nat.one_le_iff_ne_zero.mpr hk
  constructor
  · simp only [List.length_take]
    omega
  · simp only [List.length_drop]
    omega

theorem matchedTotalF_irrel : ∀ (f1 : ℕ), ∀ (f2 : ℕ) (a b : List Char),
    a.length + b.length ≤ f1 → a.length + b.length ≤ f2 →
    matchedTotalF f1 a b = matchedTotalF f2 a b := by
  intro f1
  induction f1 with
  | zero =>
    intro f2 a b h1 _
    have ha : a = [] := List.length_eq_zero.mp (by omega)
    have hb : b = [] := List.length_eq_zero.mp (by omega)
    subst ha; subst hb
    match f2 with
    | 0 => rfl
    | m + 1 => simp [matchedTotalF, find_longest_match]
  | succ n ih =>
    intro f2 a b h1 h2
    match f2 with
    | 0 =>
      have ha : a = [] := List.length_eq_zero.mp (by omega)
      have hb : b = [] := List.length_eq_zero.mp (by omega)
      subst ha; subst hb
      simp [matchedTotalF, find_longest_match]
    | m + 1 =>
      simp only [matchedTotalF]
      by_cases hk : (find_longest_match a b).2.2 = 0
      · simp [hk]
      · simp only [hk, if_false]
        obtain ⟨hs1, hs2⟩ := matchedTotalF_sub_bounds a b hk
        rw [ih m _ _ (by omega) (by omega), ih m _ _ (by omega) (by omega)]

/-- Total size of the matching blocks of `get_matching_blocks`. -/
def matchedTotal (a b : List Char) : ℕ :=
  matchedTotalF (a.length + b.length) a b

/-- Kernel-reducible product of two rationals.  `Rat.mul` and `*` on `ℚ`
do not reduce inside the kernel, while `Rat.divInt` does; all score
arithmetic of the embedding goes through this form, proved equal to `*`
by `qmul_eq`. -/
def qmul (a b : ℚ) : ℚ :=
  Rat.divInt (a.num * b.num) ((a.den : ℤ) * (b.den : ℤ))

theorem qmul_eq (a b : ℚ) : qmul a b = a * b := by
  unfold qmul
  rw [← Rat.divInt_mul_divInt', Rat.num_divInt_den, Rat.num_divInt_den]

/-- `difflib._calculate_ratio`: `2*matches/length`, and `1.0` when both
sequences are empty (stated with `Rat.divInt` so that concrete instances
reduce in the kernel; `calculate_ratio'_eq` gives the `2*m/T` form). -/
def calculate_ratio' (m length : ℕ) : ℚ :=
  if length = 0 then 1 else Rat.divInt (2 * (m : ℤ)) (length : ℤ)

theorem calculate_ratio'_eq (m length : ℕ) :
    calculate_ratio' m length =
      if length = 0 then 1 else 2 * (m : ℚ) / (length : ℚ) := by
  unfold calculate_ratio'
  by_cases h : length = 0
  · simp [h]
  · rw [if_neg h, if_neg h, Rat.divInt_eq_div]
    push_cast
    ring

/-- `SequenceMatcher.ratio()` for `seq1 = a`, `seq2 = b`. -/
def ratio' (a b : String) : ℚ :=
  calculate_ratio' (matchedTotal a.data b.data) (a.data.length + b.data.length)

/-- The matches counted by `SequenceMatcher.quick_ratio()`: each character
of `a` consumes one still-available occurrence in `b` (the size of the
multiset intersection). -/
def quickMatches : List Char → List Char → ℕ
  | [], _ => 0
  | x :: xs, b => if x ∈ b then quickMatches xs (b.erase x) + 1 else quickMatches xs b

/-- `SequenceMatcher.quick_ratio()`. -/
def quick_ratio' (a b : String) : ℚ :=
  calculate_ratio' (quickMatches a.data b.data) (a.data.length + b.data.length)

/-- `SequenceMatcher.real_quick_ratio()`. -/
def real_quick_ratio' (a b : String) : ℚ :=
  calculate_ratio' (min a.data.length b.data.length) (a.data.length + b.data.length)

/-- `word_matches` from `FuzzyReplacerHelper._consume`: two cheap bound
checks, then the exact ratio compared against the cutoff. -/
def word_matches (cutoff : ℚ) (chunk word : String) : Option ℚ :=
  if cutoff ≤ real_quick_ratio' chunk word ∧ cutoff ≤ quick_ratio' chunk word then
    if cutoff ≤ ratio' chunk word then some (ratio' chunk word) else none
  else none

/-! ### The two cheap ratios really are upper bounds -/

theorem quickMatches_eq_card_inter : ∀ (a b : List Char),
    quickMatches a b = Multiset.card ((a : Multiset Char) ∩ (b : Multiset Char)) := by
  intro a
  induction a with
  | nil => intro b; simp [quickMatches]
  | cons x xs ih =>
    intro b
    by_cases hx : x ∈ b
    · rw [quickMatches, if_pos hx, ih (b.erase x), ← Multiset.cons_coe,
        Multiset.cons_inter_of_pos _ (by simpa using hx), ← Multiset.coe_erase]
      simp
    · rw [quickMatches, if_neg hx, ih b, ← Multiset.cons_coe,
        Multiset.cons_inter_of_neg _ (by simpa using hx)]

theorem inter_superadd (s1 t1 s2 t2 : Multiset Char) :
    s1 ∩ t1 + s2 ∩ t2 ≤ (s1 + s2) ∩ (t1 + t2) := by
  rw [Multiset.le_iff_count]
  intro x
  simp only [Multiset.count_add, Multiset.count_inter]
  omega

theorem list_three_decomp (a : List Char) (i k : ℕ) :
    a = a.take i ++ ((a.drop i).take k ++ a.drop (i + k)) := by
  have h1 : a.drop (i + k) = (a.drop i).drop k := by
    rw [List.drop_drop, Nat.add_comm]
  rw [h1, List.take_append_drop, List.take_append_drop]

theorem ms_inter_self (s : Multiset Char) : s ∩ s = s :=
  le_antisymm (Multiset.inter_le_left _ _) (Multiset.le_inter le_rfl le_rfl)

theorem ms_three_decomp (a : List Char) (i k : ℕ) :
    (a : Multiset Char) =
      ((a.take i : List Char) : Multiset Char) +
      (((a.drop i).take k : List Char) : Multiset Char) +
      ((a.drop (i + k) : List Char) : Multiset Char) := by
  conv_lhs => rw [list_three_decomp a i k]
  rw [Multiset.coe_add, Multiset.coe_add, List.append_assoc]

theorem matchedTotalF_le_inter : ∀ (fuel : ℕ) (a b : List Char),
    a.length + b.length ≤ fuel →
    matchedTotalF fuel a b ≤ Multiset.card ((a : Multiset Char) ∩ (b : Multiset Char)) := by
  intro fuel
  induction fuel with
  | zero => intro a b _; simp [matchedTotalF]
  | succ n ih =>
    intro a b hab
    rw [matchedTotalF]
    by_cases hk : (find_longest_match a b).2.2 = 0
    · simp [hk]
    · rw [if_neg hk]
      obtain ⟨hs1, hs2⟩ := matchedTotalF_sub_bounds a b hk
      obtain ⟨hb1, hb2, hb3⟩ := find_longest_match_flmP a b
      rcases hflm : find_longest_match a b with ⟨i, j, k⟩
      rw [hflm] at hk hs1 hs2 hb1 hb2 hb3
      simp only at hk hs1 hs2 hb1 hb2 hb3 ⊢
      have ih1 := ih (a.take i) (b.take j) (by omega)
      have ih2 := ih (a.drop (i + k)) (b.drop (j + k)) (by omega)
      have hmidcard :
          Multiset.card (((a.drop i).take k : List Char) : Multiset Char) = k := by
        rw [Multiset.coe_card, List.length_take, List.length_drop]
        omega
      have hstep1 := inter_superadd
        ((a.take i : List Char) : Multiset Char) ((b.take j : List Char) : Multiset Char)
        (((a.drop i).take k : List Char) : Multiset Char)
        (((b.drop j).take k : List Char) : Multiset Char)
      have hstep2 := inter_superadd
        (((a.take i : List Char) : Multiset Char) +
          (((a.drop i).take k : List Char) : Multiset Char))
        (((b.take j : List Char) : Multiset Char) +
          (((b.drop j).take k : List Char) : Multiset Char))
        ((a.drop (i + k) : List Char) : Multiset Char)
        ((b.drop (j + k) : List Char) : Multiset Char)
      have hcard12 := Multiset.card_le_card (le_trans (add_le_add_right hstep1 _) hstep2)
      rw [← ms_three_decomp a i k, ← ms_three_decomp b j k] at hcard12
      rw [Multiset.card_add, Multiset.card_add] at hcard12
      have hmid : (((a.drop i).take k : List Char) : Multiset Char) ∩
          (((b.drop j).take k : List Char) : Multiset Char) =
          (((a.drop i).take k : List Char) : Multiset Char) := by
        rw [hb3, ms_inter_self]
      rw [hmid, hmidcard] at hcard12
      omega

theorem calculate_ratio'_mono {m1 m2 T : ℕ} (h : m1 ≤ m2) :
    calculate_ratio' m1 T ≤ calculate_ratio' m2 T := by
  rw [calculate_ratio'_eq, calculate_ratio'_eq]
  by_cases hT : T = 0
  · simp [hT]
  · rw [if_neg hT, if_neg hT]
    have hT2 : (0 : ℚ) < (T : ℚ) := by
      exact_mod_cast Nat.pos_of_ne_zero hT
    have hm : (m1 : ℚ) ≤ (m2 : ℚ) := by exact_mod_cast h
    gcongr

theorem quickMatches_le_left (a b : List Char) : quickMatches a b ≤ a.length := by
  rw [quickMatches_eq_card_inter]
  have := Multiset.card_le_card (Multiset.inter_le_left (a : Multiset Char) (b : Multiset Char))
  simpa using this

theorem quickMatches_le_right (a b : List Char) : quickMatches a b ≤ b.length := by
  rw [quickMatches_eq_card_inter]
  have := Multiset.card_le_card (Multiset.inter_le_right (a : Multiset Char) (b : Multiset Char))
  simpa using this

theorem ratio'_le_quick (a b : String) : ratio' a b ≤ quick_ratio' a b := by
  unfold ratio' quick_ratio'
  apply calculate_ratio'_mono
  rw [quickMatches_eq_card_inter]
  exact matchedTotalF_le_inter _ _ _ le_rfl

theorem quick_le_real_quick (a b : String) : quick_ratio' a b ≤ real_quick_ratio' a b := by
  unfold quick_ratio' real_quick_ratio'
  apply calculate_ratio'_mono
  exact le_min (quickMatches_le_left _ _) (quickMatches_le_right _ _)

/-- The staged test of `word_matches` is equivalent to the direct
threshold test on the exact ratio. -/
theorem word_matches_eq (c : ℚ) (chunk word : String) :
    word_matches c chunk word =
      if c ≤ ratio' chunk word then some (ratio' chunk word) else none := by
  unfold word_matches
  by_cases hr : c ≤ ratio' chunk word
  · have h1 : c ≤ quick_ratio' chunk word := le_trans hr (ratio'_le_quick _ _)
    have h2 : c ≤ real_quick_ratio' chunk word := le_trans h1 (quick_le_real_quick _ _)
    rw [if_pos ⟨h2, h1⟩, if_pos hr]
  · rw [if_neg hr]
    by_cases hq : c ≤ real_quick_ratio' chunk word ∧ c ≤ quick_ratio' chunk word
    · rw [if_pos hq]
    · rw [if_neg hq]

theorem foldl_fix {σ α : Type} (f : σ → α → σ) (s : σ) :
    ∀ l : List α, (∀ a ∈ l, f s a = s) → l.foldl f s = s := by
  intro l
  induction l with
  | nil => intro _; rfl
  | cons x xs ih =>
    intro h
    rw [List.foldl_cons, h x (by simp)]
    exact ih (fun a ha => h a (by simp [ha]))

theorem commonPrefixLen_self : ∀ a : List Char, commonPrefixLen a a = a.length := by
  intro a
  induction a with
  | nil => rfl
  | cons x xs ih => simp [commonPrefixLen, ih]

theorem bestStep_keep (a b : List Char) (best : ℕ × ℕ × ℕ) (ij : ℕ × ℕ)
    (h : commonPrefixLen (a.drop ij.1) (b.drop ij.2) ≤ best.2.2) :
    bestStep a b best ij = best := by
  unfold bestStep
  rw [if_neg (by omega)]

theorem find_longest_match_self (a : List Char) :
    find_longest_match a a = (0, 0, a.length) := by
  rcases ha : a.length with _ | m
  · have : a = [] := List.length_eq_zero.mp ha
    subst this
    rfl
  · have hkeep : ∀ i j : ℕ, 1 ≤ i + j →
        commonPrefixLen (a.drop i) (a.drop j) ≤ m := by
      intro i j hij
      have h1 := commonPrefixLen_le_left (a.drop i) (a.drop j)
      have h2 := commonPrefixLen_le_right (a.drop i) (a.drop j)
      simp only [List.length_drop, ha] at h1 h2
      omega
    unfold find_longest_match
    rw [ha, List.range_succ_eq_map, List.foldl_cons]
    have hinner0 : (List.foldl (fun best j => bestStep a a best (0, j))
        (0, 0, 0) (0 :: (List.range m).map Nat.succ)) = (0, 0, m + 1) := by
      rw [List.foldl_cons]
      have hfirst : bestStep a a (0, 0, 0) (0, 0) = (0, 0, m + 1) := by
        unfold bestStep
        simp [commonPrefixLen_self, ha]
      rw [hfirst]
      apply foldl_fix
      intro j hj
      simp only [List.mem_map] at hj
      obtain ⟨j0, _, hj0⟩ := hj
      apply bestStep_keep
      exact le_trans (hkeep 0 j (by omega)) (Nat.le_succ m)
    rw [hinner0]
    apply foldl_fix
    intro i hi
    simp only [List.mem_map] at hi
    obtain ⟨i0, _, hi0⟩ := hi
    apply foldl_fix
    intro j _
    apply bestStep_keep
    exact le_trans (hkeep i j (by omega)) (Nat.le_succ m)

theorem matchedTotalF_nil : ∀ fuel, matchedTotalF fuel [] [] = 0 := by
  intro fuel
  cases fuel with
  | zero => rfl
  | succ n => simp [matchedTotalF, find_longest_match]

theorem matchedTotal_self (a : List Char) : matchedTotal a a = a.length := by
  unfold matchedTotal
  cases ha : a.length with
  | zero =>
    have : a = [] := List.length_eq_zero.mp ha
    subst this
    rfl
  | succ m =>
    show matchedTotalF (m + 1 + m + 1) a a = m + 1
    simp only [matchedTotalF, find_longest_match_self]
    rw [ha]
    rw [if_neg (by omega)]
    have hdrop : a.drop (0 + (m + 1)) = [] := by
      apply List.drop_eq_nil_of_le
      omega
    rw [hdrop, List.take_zero]
    simp [matchedTotalF_nil]

theorem ratio'_self (x : String) : ratio' x x = 1 := by
  unfold ratio'
  rw [matchedTotal_self, calculate_ratio'_eq]
  by_cases h : x.data.length + x.data.length = 0
  · rw [if_pos h]
  · rw [if_neg h]
    have hcast : ((x.data.length + x.data.length : ℕ) : ℚ) = 2 * (x.data.length : ℚ) := by
      push_cast
      ring
    rw [hcast]
    have hne : 2 * (x.data.length : ℚ) ≠ 0 := by
      have : x.data.length ≠ 0 := by omega
      have : (0 : ℚ) < (x.data.length : ℚ) := by exact_mod_cast Nat.pos_of_ne_zero this
      positivity
    exact div_self hne

theorem word_matches_self {c : ℚ} (x : String) (hc : c ≤ 1) :
    word_matches c x x = some 1 := by
  rw [word_matches_eq, ratio'_self, if_pos hc]

/-! ## The trie (`dict_to_tree`)

The Python tree is a nested `dict`.  A key maps either to a sub-`dict`
(a child edge, keyed by a normalized word) or to `None` (a terminal,
keyed by the *replacement string*: `cur[v] = None`).  The model is an
ordered association list, `none` marking a terminal. -/

inductive Tree where
  | mk : List (String × Option Tree) → Tree

/-- The entries (ordered key/value pairs) of a node. -/
def Tree.entries : Tree → List (String × Option Tree)
  | Tree.mk es => es

/-- Python dict item assignment `d[k] = v`: replace the value in place if
the key is present (keys are unique in every tree this file builds),
otherwise append the new binding. -/
def assign (es : List (String × Option Tree)) (k : String) (v : Option Tree) :
    List (String × Option Tree) :=
  if es.any (fun e => e.1 == k) then es.map (fun e => if e.1 == k then (k, v) else e)
  else es ++ [(k, v)]

/-- One entry of `dict_to_tree`: walk/create the path of (already
normalized) words with `setdefault`, then record the replacement as a
terminal with `cur[v] = None`.  Returns `none` when the Python code would
raise: `setdefault` hands back an existing `None` value (a terminal whose
key collides with the next word) and the next dict operation on it fails. -/
def insertEntry : List String → Tree → String → Option Tree
  | [], Tree.mk es, r => some (Tree.mk (assign es r none))
  | w :: ws, Tree.mk es, r =>
    match es.lookup w with
    | some (some sub) =>
      match insertEntry ws sub r with
      | some sub2 => some (Tree.mk (assign es w (some sub2)))
      | none => none
    | some none => none
    | none =>
      match insertEntry ws (Tree.mk []) r with
      | some sub2 => some (Tree.mk (es ++ [(w, some sub2)]))
      | none => none

/-- `dict_to_tree`: fold the ordered mapping entries into the tree. -/
def dict_to_tree (d : List (String × String)) (func : String → String) : Option Tree :=
  d.foldlM (fun t e => insertEntry ((pysplit e.1).map func) t e.2) (Tree.mk [])

/-! ## Matches, states, and the streaming matcher -/

/-- A match: word span `[i, j)`, replacement `s`, score. -/
structure Match where
  i : ℕ
  j : ℕ
  s : String
  score : ℚ
deriving DecidableEq

/-- `Match.weighted_score`: the score weighted by the length of the match
(computed with integer subtraction in Python, hence over `ℚ` here, in
kernel-reducible form; `weighted_score_eq` gives the direct form). -/
def Match.weighted_score (m : Match) : ℚ :=
  qmul m.score (Rat.divInt ((m.j : ℤ) - (m.i : ℤ)) 1)

theorem Match.weighted_score_eq (m : Match) :
    m.weighted_score = m.score * ((m.j : ℚ) - (m.i : ℚ)) := by
  unfold Match.weighted_score
  rw [qmul_eq, Rat.divInt_eq_div]
  push_cast
  ring

/-- A matcher state: start index, current subtree (`none` models a Python
`State` holding `None`, which the root scan can create), cumulative score. -/
structure State where
  i : ℕ
  d : Option Tree
  score : ℚ

/-- `State.as_match`. -/
def State.as_match (st : State) (j : ℕ) (s : String) : Match :=
  ⟨st.i, j, s, st.score⟩

/-- `State.update`: advance one step in the tree.  The Python method
asserts `v is not None`; passing `None` raises, modelled by `none`. -/
def State.update (st : State) (v : Option Tree) (score : ℚ) : Option State :=
  match v with
  | none => none
  | some _ => some ⟨st.i, v, qmul st.score score⟩

/-- One step of the fold inside `select_matches`. -/
def selStep (acc : List Match × Match) (winner : Match) : List Match × Match :=
  if winner.i = acc.2.i ∧ acc.2.weighted_score < winner.weighted_score then (acc.1, winner)
  else if acc.2.j ≤ winner.i then (acc.1 ++ [acc.2], winner)
  else acc

/-- `select_matches`: greedy left-to-right selection with a current winner. -/
def select_matches : List Match → List Match
  | [] => []
  | m :: rest => (rest.foldl selStep ([], m)).1 ++ [(rest.foldl selStep ([], m)).2]

/-- One root entry inside `_consume`: a `None` value is a root terminal and
emits a zero-score one-token match before any similarity test; then the key
is scored against the current token and a truthy score starts a new state
(Python `if score:` is false both for `None` and for `0.0`). -/
def rootStep (c : ℚ) (i : ℕ) (word : String) (acc : List State × List Match)
    (e : String × Option Tree) : List State × List Match :=
  let acc2 := if e.2.isNone then (acc.1, acc.2 ++ [⟨i, i + 1, e.1, 0⟩]) else acc
  match word_matches c e.1 word with
  | some r => if r = 0 then acc2 else (acc2.1 ++ [⟨i, e.2, r⟩], acc2.2)
  | none => acc2

/-- The root loop of `_consume`. -/
def rootScan (c : ℚ) (root : Tree) (i : ℕ) (word : String)
    (acc : List State × List Match) : List State × List Match :=
  root.entries.foldl (rootStep c i word) acc

/-- One entry of an active state inside `_consume`: a `None` value emits the
match ending *before* the current token, and a truthy score advances via
`State.update` — which raises (`none`) exactly when the value is `None`,
i.e. when a terminal key fuzzily matches the current token. -/
def advanceStep (c : ℚ) (i : ℕ) (word : String) (st : State)
    (acc : List State × List Match) (e : String × Option Tree) :
    Option (List State × List Match) :=
  let acc2 := if e.2.isNone then (acc.1, acc.2 ++ [st.as_match i e.1]) else acc
  match word_matches c e.1 word with
  | some r =>
    if r = 0 then some acc2
    else
      match st.update e.2 r with
      | some st2 => some (acc2.1 ++ [st2], acc2.2)
      | none => none
  | none => some acc2

/-- The per-state loop of `_consume`; `state.items()` on a `None` subtree
raises, modelled by `none`. -/
def advanceState (c : ℚ) (i : ℕ) (word : String)
    (acc : List State × List Match) (st : State) : Option (List State × List Match) :=
  match st.d with
  | none => none
  | some node => node.entries.foldlM (advanceStep c i word st) acc

/-- `FuzzyReplacerHelper._consume` for one (already normalized) token:
root scan first (fresh state list), then every previous state. -/
def consume (c : ℚ) (root : Tree) (i : ℕ) (word : String)
    (states : List State) (ms : List Match) : Option (List State × List Match) :=
  states.foldlM (advanceState c i word) (rootScan c root i word ([], ms))

/-- End-of-input flush of one state (`FuzzyReplacerHelper.process`, final
loop): emit a match for every terminal at the current node. -/
def flushState (n : ℕ) (ms : List Match) (st : State) : Option (List Match) :=
  match st.d with
  | none => none
  | some node =>
    some (node.entries.foldl
      (fun ms2 e => if e.2.isNone then ms2 ++ [st.as_match n e.1] else ms2) ms)

/-- End-of-input flush over all live states. -/
def flush (n : ℕ) (states : List State) (ms : List Match) : Option (List Match) :=
  states.foldlM (flushState n) ms

/-- The main token loop of `FuzzyReplacerHelper.process`: each token is
normalized and consumed with its index. -/
def runConsume (c : ℚ) (root : Tree) (f : String → String) :
    ℕ → List String → List State × List Match → Option (List State × List Match)
  | _, [], acc => some acc
  | i, w :: ws, acc =>
    match consume c root i (f w) acc.1 acc.2 with
    | some acc2 => runConsume c root f (i + 1) ws acc2
    | none => none

/-- `FuzzyReplacerHelper.process`: run the matcher over the word list and
flush; `none` when the Python code raises. -/
def helperProcess (c : ℚ) (root : Tree) (f : String → String)
    (words : List String) : Option (List Match) :=
  match runConsume c root f 0 words ([], []) with
  | some (states, ms) => flush words.length states ms
  | none => none

/-- The reconstruction loop of `FuzzyReplacer.process`: selected matches
applied in reverse start order (`foldr`).  Python computes `spaces[j-1:]`;
every match the program selects has `j >= 1`, where truncated `ℕ`
subtraction and the Python slice agree. -/
def applyMatches (sel : List Match) (words spaces : List String) :
    List String × List String :=
  sel.foldr
    (fun m acc => (acc.1.take m.i ++ m.s :: acc.1.drop m.j,
                   acc.2.take m.i ++ acc.2.drop (m.j - 1)))
    (words, spaces)

/-- The final `"".join(...)` over `zip(words, spaces)` (zip truncates to
the shorter list). -/
def interleaveJoin : List String → List String → String
  | w :: ws, p :: ps => w ++ p ++ interleaveJoin ws ps
  | _, _ => ""

/-- `FuzzyReplacer.__init__` + `FuzzyReplacer.process` as one function of
the ordered mapping, normalizer, cutoff and input text.  `none` models a
raised exception (in construction or matching). -/
def process (m : List (String × String)) (f : String → String) (c : ℚ)
    (s : String) : Option String :=
  match dict_to_tree m f with
  | none => none
  | some root =>
    match helperProcess c root f ((wordsSeps s.data).map Prod.fst) with
    | none => none
    | some ms =>
      match ms with
      | [] => some s
      | _ =>
        some (interleaveJoin
          (applyMatches (select_matches ms) ((wordsSeps s.data).map Prod.fst)
            ((wordsSeps s.data).map Prod.snd)).1
          (applyMatches (select_matches ms) ((wordsSeps s.data).map Prod.fst)
            ((wordsSeps s.data).map Prod.snd)).2)

/-- The raw match list the helper produces on a given token list (before
selection), exposed for claims about emission. -/
def matchesOfToks (m : List (String × String)) (f : String → String) (c : ℚ)
    (toks : List String) : Option (List Match) :=
  match dict_to_tree m f with
  | none => none
  | some root => helperProcess c root f toks

/-! ## Observations on trees and claim-level notions -/

/-- The subtree reached through the child edge `k` (a non-`None` value). -/
def Tree.childNode (t : Tree) (k : String) : Option Tree :=
  match t.entries.lookup k with
  | some (some sub) => some sub
  | _ => none

/-- The terminal replacement strings recorded directly at a node. -/
def terminalKeys (t : Tree) : List String :=
  t.entries.filterMap (fun e => if e.2.isNone then some e.1 else none)

/-- Walk a path of child edges. -/
def nodeAtPath : Tree → List String → Option Tree
  | t, [] => some t
  | t, w :: ws =>
    match t.entries.lookup w with
    | some (some sub) => nodeAtPath sub ws
    | _ => none

/-- The linear tree a single mapping entry builds: one child edge per word,
the replacement recorded as terminal at the last node. -/
def pathTree : List String → String → Tree
  | [], r => Tree.mk [(r, none)]
  | w :: ws, r => Tree.mk [(w, some (pathTree ws r))]

/-- A phrase assembled from words with single spaces. -/
def mkPhrase : List String → String
  | [] => ""
  | [w] => w
  | w :: ws => w ++ " " ++ mkPhrase ws

/-- A nonempty word made only of word characters (so the tokenizer and
`str.split()` agree on it). -/
def wordShaped (w : String) : Bool :=
  !w.data.isEmpty && w.data.all isWordChar

/-- The word/separator pairs the tokenizer produces on `mkPhrase ws`. -/
def pairsOf : List String → List (String × String)
  | [] => []
  | [w] => [(w, "")]
  | w :: ws => (w, " ") :: pairsOf ws

/-- The reconstruction described by the specification, written with a
position cursor over the original lists: everything outside the selected
spans is copied verbatim and in order; inside a span `[i, j)` the words
are replaced by the single replacement string, the separators at
`i..j-2` are discarded and the separator at `j-1` is retained. -/
def renderSpec (words spaces : List String) : ℕ → List Match → List String × List String
  | pos, [] => (words.drop pos, spaces.drop pos)
  | pos, m :: rest =>
    ((words.drop pos).take (m.i - pos) ++ m.s :: (renderSpec words spaces m.j rest).1,
     (spaces.drop pos).take (m.i - pos) ++ (spaces.drop (m.j - 1)).take 1 ++
       (renderSpec words spaces m.j rest).2)

/-- Every match of the list starts at or after position `p` (used to state
the reconstruction frame property). -/
def startsFrom (p : ℕ) : List Match → Prop
  | [] => True
  | m :: _ => p ≤ m.i

/-- The canonical state the exact phrase creates: started at token 0, at
depth `t` of the linear tree, with cumulative score 1. -/
def c1Canon (nws : List String) (r : String) (t : ℕ) : State :=
  ⟨0, some (pathTree (nws.drop t) r), 1⟩

/-- Invariant of a live state after `t` tokens of the exact phrase have
been consumed against the linear tree of `nws`: the state entered at some
root scan (depth at least 1), its depth plus start index equals `t`, its
node is the corresponding suffix of the path, and a state started at token
0 is the canonical one (score 1, depth `t`). -/
def c1Inv (nws : List String) (r : String) (t : ℕ) (st : State) : Prop :=
  ∃ d, 1 ≤ d ∧ st.i + d = t ∧ st.d = some (pathTree (nws.drop d) r) ∧
    (st.i = 0 → st.score = 1 ∧ d = t)

/-- Number of states started at token 0 (each is the canonical state and
emits one match at the flush). -/
def zCount (S : List State) : ℕ :=
  S.countP (fun st => st.i == 0)

/-! ## Claims -/

/-- C3: the claim says `process` always terminates normally and returns a
string, with `State.update` never invoked on a `None` subtree.  The code
violates its own assertion: with mapping `a b -> x` and input `a b x`,
after consuming `a b` the active state sits at the terminal node
`{x: None}`; scanning the third token `x`, the terminal key `x` itself
scores `1.0 >= cutoff` against the token, and `state.update(None, 1.0)`
fires the `assert v is not None` (an `AssertionError` escapes `process`).
The model returns `none` exactly there (cutoff `mkRat 17 20 = 0.85`). -/
theorem C3_process_crashes_on_terminal_key_match :
    process [("a b", "x")] defaultNormalize (mkRat 17 20) "a b x" = none := by
  decide

/-- C7: the claim says construction fails fast with a configuration error
on an empty phrase.  The code accepts it silently: `"".split()` is empty,
so the loop body never runs and `root[v] = None` records the replacement as
a root-level terminal.  `dict_to_tree` returns that tree, raising nothing. -/
theorem C7_empty_phrase_silently_accepted :
    dict_to_tree [("", "X")] defaultNormalize = some (Tree.mk [("X", none)]) := rfl

theorem selStep_chain (acc : List Match × Match) (w : Match)
    (h : List.Chain' (fun a b => a.j ≤ b.i) (acc.1 ++ [acc.2])) :
    List.Chain' (fun a b => a.j ≤ b.i) ((selStep acc w).1 ++ [(selStep acc w).2]) := by
  unfold selStep
  by_cases h1 : w.i = acc.2.i ∧ acc.2.weighted_score < w.weighted_score
  · rw [if_pos h1]
    rw [List.chain'_append] at h ⊢
    refine ⟨h.1, List.chain'_singleton w, ?_⟩
    intro x hx y hy
    simp only [List.head?_cons, Option.mem_def, Option.some.injEq] at hy
    subst hy
    have := h.2.2 x hx acc.2 (by simp)
    omega
  · rw [if_neg h1]
    by_cases h2 : acc.2.j ≤ w.i
    · rw [if_pos h2]
      rw [List.chain'_append]
      refine ⟨h, List.chain'_singleton w, ?_⟩
      intro x hx y hy
      simp only [List.head?_cons, Option.mem_def, Option.some.injEq] at hy
      subst hy
      rw [List.getLast?_concat] at hx
      simp only [Option.mem_def, Option.some.injEq] at hx
      subst hx
      exact h2
    · rw [if_neg h2]
      exact h

theorem selStep_mem (acc : List Match × Match) (w : Match) (x : Match)
    (hx : x ∈ (selStep acc w).1 ++ [(selStep acc w).2]) :
    x ∈ acc.1 ++ [acc.2] ∨ x = w := by
  unfold selStep at hx
  by_cases h1 : w.i = acc.2.i ∧ acc.2.weighted_score < w.weighted_score
  · rw [if_pos h1] at hx
    rcases List.mem_append.mp hx with hx | hx
    · exact Or.inl (List.mem_append.mpr (Or.inl hx))
    · simp at hx
      exact Or.inr hx
  · rw [if_neg h1] at hx
    by_cases h2 : acc.2.j ≤ w.i
    · rw [if_pos h2] at hx
      rcases List.mem_append.mp hx with hx | hx
      · exact Or.inl hx
      · simp at hx
        exact Or.inr hx
    · rw [if_neg h2] at hx
      exact Or.inl hx

theorem chain'_le_pairwise : ∀ (l : List Match),
    List.Chain' (fun a b => a.j ≤ b.i) l → (∀ x ∈ l, x.i ≤ x.j) →
    List.Pairwise (fun a b => a.j ≤ b.i) l := by
  intro l
  induction l with
  | nil => intro _ _; exact List.Pairwise.nil
  | cons a t ih =>
    intro hc hwf
    have ht := ih (List.Chain'.tail hc) (fun x hx => hwf x (by simp [hx]))
    refine List.Pairwise.cons ?_ ht
    intro b hb
    cases t with
    | nil => simp at hb
    | cons c t2 =>
      have hac : a.j ≤ c.i := (List.chain'_cons.mp hc).1
      rcases List.mem_cons.mp hb with hb | hb
      · subst hb
        exact hac
      · have hcb : c.j ≤ b.i := List.rel_of_pairwise_cons ht hb
        have hcwf : c.i ≤ c.j := hwf c (by simp)
        omega

/-- C5: for every input list of matches, whatever its order, the list
`select_matches` returns satisfies `match[k].end <= match[k+1].start` for
all adjacent pairs; and when every input match has `start <= end`, the
returned list is fully pairwise non-overlapping and ordered by start
index (stated as `Pairwise` of the same relation). -/
theorem C5_select_matches_nonoverlap (ms : List Match) :
    List.Chain' (fun a b => a.j ≤ b.i) (select_matches ms) ∧
      ((∀ m ∈ ms, m.i ≤ m.j) →
        List.Pairwise (fun a b => a.j ≤ b.i) (select_matches ms)) := by
  cases ms with
  | nil => simp [select_matches]
  | cons m rest =>
    have key : List.Chain' (fun a b => a.j ≤ b.i)
          ((rest.foldl selStep ([], m)).1 ++ [(rest.foldl selStep ([], m)).2]) ∧
        ∀ x ∈ (rest.foldl selStep ([], m)).1 ++ [(rest.foldl selStep ([], m)).2],
          x ∈ m :: rest := by
      have := foldl_inv
        (fun acc : List Match × Match =>
          List.Chain' (fun a b => a.j ≤ b.i) (acc.1 ++ [acc.2]) ∧
            ∀ x ∈ acc.1 ++ [acc.2], x ∈ m :: rest)
        selStep rest ([], m) ?_ ?_
      · exact this
      · constructor
        · simp
        · intro x hx
          simp at hx
          simp [hx]
      · intro s a ha hp
        refine ⟨selStep_chain s a hp.1, ?_⟩
        intro x hx
        rcases selStep_mem s a x hx with hx2 | hx2
        · exact hp.2 x hx2
        · subst hx2
          simp [ha]
    constructor
    · show List.Chain' _ ((rest.foldl selStep ([], m)).1 ++ [(rest.foldl selStep ([], m)).2])
      exact key.1
    · intro hwf
      exact chain'_le_pairwise _ key.1 (fun x hx => hwf x (key.2 x hx))

/-- Witness for C5 at a concrete, deliberately unsorted match list. -/
theorem C5_select_matches_nonoverlap_witness :
    List.Chain' (fun a b => a.j ≤ b.i)
        (select_matches [⟨0, 2, "A", 1⟩, ⟨1, 3, "B", 1⟩, ⟨2, 3, "C", 1⟩]) ∧
      List.Pairwise (fun a b => a.j ≤ b.i)
        (select_matches [⟨0, 2, "A", 1⟩, ⟨1, 3, "B", 1⟩, ⟨2, 3, "C", 1⟩]) :=
  ⟨(C5_select_matches_nonoverlap [⟨0, 2, "A", 1⟩, ⟨1, 3, "B", 1⟩, ⟨2, 3, "C", 1⟩]).1,
   (C5_select_matches_nonoverlap [⟨0, 2, "A", 1⟩, ⟨1, 3, "B", 1⟩, ⟨2, 3, "C", 1⟩]).2
     (by decide)⟩

theorem assign_mem_self (es : List (String × Option Tree)) (k : String) (v : Option Tree) :
    (k, v) ∈ assign es k v := by
  unfold assign
  by_cases h : es.any (fun e => e.1 == k)
  · rw [if_pos h]
    obtain ⟨e, he, hek⟩ := List.any_eq_true.mp h
    apply List.mem_map.mpr
    exact ⟨e, he, by simp [hek]⟩
  · rw [if_neg h]
    simp

theorem assign_mem_of_ne (es : List (String × Option Tree)) (k : String) (v : Option Tree)
    (k2 : String) (v2 : Option Tree) (hne : k2 ≠ k) (h : (k2, v2) ∈ es) :
    (k2, v2) ∈ assign es k v := by
  unfold assign
  by_cases ha : es.any (fun e => e.1 == k)
  · rw [if_pos ha]
    apply List.mem_map.mpr
    exact ⟨(k2, v2), h, by simp [hne]⟩
  · rw [if_neg ha]
    simp [h]

theorem insertEntry_emptyTree (r : String) : ∀ ws : List String,
    insertEntry ws (Tree.mk []) r = some (pathTree ws r) := by
  intro ws
  induction ws with
  | nil => rfl
  | cons w ws ih =>
    simp only [insertEntry]
    rw [ih]
    rfl

theorem insert_same_path : ∀ (ws : List String) (r1 r2 : String),
    ∃ t n, insertEntry ws (pathTree ws r1) r2 = some t ∧
      nodeAtPath t ws = some n ∧ (r1, none) ∈ n.entries ∧ (r2, none) ∈ n.entries := by
  intro ws
  induction ws with
  | nil =>
    intro r1 r2
    refine ⟨Tree.mk (assign [(r1, none)] r2 none), Tree.mk (assign [(r1, none)] r2 none),
      rfl, rfl, ?_, assign_mem_self _ _ _⟩
    by_cases h : r2 = r1
    · subst h
      exact assign_mem_self _ _ _
    · exact assign_mem_of_ne _ _ _ _ _ (fun hh => h hh.symm) (by simp)
  | cons w ws ih =>
    intro r1 r2
    obtain ⟨t, n, h1, h2, h3, h4⟩ := ih r1 r2
    refine ⟨Tree.mk [(w, some t)], n, ?_, ?_, h3, h4⟩
    · simp only [insertEntry, pathTree, List.lookup, beq_self_eq_true]
      rw [h1]
      simp [assign]
    · simp only [nodeAtPath, Tree.entries, List.lookup, beq_self_eq_true]
      exact h2

/-- C6 counterexample: the claim predicts last-write-wins for two entries
with an identical phrase.  The code instead stores the replacement as a
*key* mapped to `None`, so a second replacement for the same phrase is an
additional terminal key: both `X` and `Y` survive at the node (and the
result differs from what building with only the later entry produces). -/
theorem C6_counterexample :
    dict_to_tree [("a", "X"), ("a", "Y")] defaultNormalize =
        some (Tree.mk [("a", some (Tree.mk [("X", none), ("Y", none)]))]) ∧
      dict_to_tree [("a", "Y")] defaultNormalize =
        some (Tree.mk [("a", some (Tree.mk [("Y", none)]))]) ∧
      (dict_to_tree [("a", "X"), ("a", "Y")] defaultNormalize).bind
          (fun t => (t.childNode "a").map terminalKeys) = some ["X", "Y"] :=
  ⟨rfl, rfl, rfl⟩

/-- C6 (amended): trie construction is deterministic (it is a pure
function of the ordered entry list); when two entries carry an identical
phrase, the later replacement does *not* overwrite the earlier terminal:
both replacements are recorded as terminals at the path's final node
(identical replacements are recorded once); entries with distinct phrases
remain additive. -/
theorem C6_same_phrase_terminals_additive (p r1 r2 : String) (f : String → String) :
    ∃ n, (dict_to_tree [(p, r1), (p, r2)] f).bind
        (fun t => nodeAtPath t ((pysplit p).map f)) = some n ∧
      (r1, none) ∈ n.entries ∧ (r2, none) ∈ n.entries := by
  obtain ⟨t, n, h1, h2, h3, h4⟩ := insert_same_path ((pysplit p).map f) r1 r2
  refine ⟨n, ?_, h3, h4⟩
  unfold dict_to_tree
  rw [List.foldlM_cons, insertEntry_emptyTree]
  simp only [Option.bind_eq_bind, Option.some_bind, List.foldlM_cons, h1, List.foldlM_nil]
  simp [h2]

theorem lookup_map_set : ∀ (es : List (String × Option Tree)) (k : String) (v : Option Tree),
    es.any (fun e => e.1 == k) = true →
    List.lookup k (es.map (fun e => if e.1 == k then (k, v) else e)) = some v := by
  intro es k v
  induction es with
  | nil => intro h; simp at h
  | cons e es ih =>
    intro h
    obtain ⟨k1, v1⟩ := e
    simp only [List.any_cons, Bool.or_eq_true] at h
    by_cases he : k1 = k
    · subst he
      simp [List.lookup_cons]
    · have h2 : es.any (fun e => e.1 == k) = true := by
        rcases h with h | h
        · exact absurd (by simpa using h) he
        · exact h
      simp only [List.map_cons]
      rw [if_neg (by simpa using he)]
      rw [List.lookup_cons]
      have hkk : (k == k1) = false := by
        simp
        exact fun hh => he hh.symm
      rw [hkk]
      exact ih h2

theorem lookup_append_new : ∀ (es : List (String × Option Tree)) (k : String) (v : Option Tree),
    es.any (fun e => e.1 == k) = false →
    List.lookup k (es ++ [(k, v)]) = some v := by
  intro es k v
  induction es with
  | nil => intro _; simp [List.lookup_cons]
  | cons e es ih =>
    intro h
    obtain ⟨k1, v1⟩ := e
    simp only [List.any_cons, Bool.or_eq_false_iff] at h
    rw [List.cons_append, List.lookup_cons]
    have hkk : (k == k1) = false := by
      simp
      intro hh
      subst hh
      simp at h
    rw [hkk]
    exact ih h.2

theorem lookup_assign_self (es : List (String × Option Tree)) (k : String) (v : Option Tree) :
    List.lookup k (assign es k v) = some v := by
  unfold assign
  by_cases h : es.any (fun e => e.1 == k)
  · rw [if_pos h]
    exact lookup_map_set es k v h
  · rw [if_neg h]
    exact lookup_append_new es k v (by rwa [Bool.not_eq_true] at h)

/-- C8 counterexample: terminals and child edges share one string-keyed
dict, so they are *not* independent.  Building `a b -> R` creates the child
edge `b` under node `a`; then recording the terminal for the entry
`a -> b` (replacement string `b`) at that same node overwrites the child
edge `b` — the whole `{R: None}` subtree is silently removed.  With the
entries in the opposite order, `setdefault` hands back the existing `None`
terminal while walking `a b`, and construction raises (`none`). -/
theorem C8_counterexample :
    dict_to_tree [("a b", "R")] defaultNormalize =
        some (Tree.mk [("a", some (Tree.mk [("b", some (Tree.mk [("R", none)]))]))]) ∧
      dict_to_tree [("a b", "R"), ("a", "b")] defaultNormalize =
        some (Tree.mk [("a", some (Tree.mk [("b", none)]))]) ∧
      dict_to_tree [("a", "b"), ("a b", "R")] defaultNormalize = none :=
  ⟨rfl, rfl, rfl⟩

/-- C8 (amended): independence of terminals and children holds only away
from key collisions, because both live in the same string-keyed map.
Inserting an entry along path `ws` with replacement `r`: at the final
node, the terminal `(r, None)` is recorded and every *existing* binding
(child edge or terminal) whose key differs from `r` is preserved; at the
entry node of a nonempty path, every binding whose key differs from the
walked word is preserved (so adding a child never alters differently
named terminals).  When the replacement string equals a child's key, the
child subtree is overwritten (see the counterexample). -/
theorem C8_terminal_child_independence : ∀ (ws : List String) (r : String) (t t2 : Tree),
    insertEntry ws t r = some t2 →
    (∀ n, nodeAtPath t ws = some n →
      ∃ n2, nodeAtPath t2 ws = some n2 ∧ (r, none) ∈ n2.entries ∧
        ∀ k v, k ≠ r → (k, v) ∈ n.entries → (k, v) ∈ n2.entries) ∧
    (∀ w2 ws2, ws = w2 :: ws2 → ∀ k v, k ≠ w2 →
      (k, v) ∈ t.entries → (k, v) ∈ t2.entries) := by
  intro ws
  induction ws with
  | nil =>
    intro r t t2 h
    obtain ⟨es⟩ := t
    simp only [insertEntry, Option.some.injEq] at h
    subst h
    constructor
    · intro n hn
      simp only [nodeAtPath, Option.some.injEq] at hn
      subst hn
      refine ⟨Tree.mk (assign es r none), rfl, assign_mem_self _ _ _, ?_⟩
      intro k v hk hv
      exact assign_mem_of_ne _ _ _ _ _ hk hv
    · intro w2 ws2 hws
      cases hws
  | cons w ws ih =>
    intro r t t2 h
    obtain ⟨es⟩ := t
    simp only [insertEntry] at h
    split at h
    · rename_i sub hlk
      split at h
      · rename_i sub2 hsub
        simp only [Option.some.injEq] at h
        subst h
        obtain ⟨ihp, _⟩ := ih r sub sub2 hsub
        constructor
        · intro n hn
          simp only [nodeAtPath, Tree.entries, hlk] at hn
          obtain ⟨n2, hn2, hmem, hpres⟩ := ihp n hn
          refine ⟨n2, ?_, hmem, hpres⟩
          simp only [nodeAtPath, Tree.entries, lookup_assign_self]
          exact hn2
        · intro w2 ws2 hws k v hk hv
          cases hws
          simp only [Tree.entries] at hv ⊢
          exact assign_mem_of_ne _ _ _ _ _ hk hv
      · cases h
    · cases h
    · rename_i hlk
      split at h
      · rename_i sub2 hsub
        simp only [Option.some.injEq] at h
        subst h
        constructor
        · intro n hn
          simp only [nodeAtPath, Tree.entries, hlk] at hn
          exact Option.noConfusion hn
        · intro w2 ws2 hws k v hk hv
          cases hws
          simp only [Tree.entries] at hv ⊢
          exact List.mem_append.mpr (Or.inl hv)
      · cases h

/-- Witness for C8 at a concrete tree: recording the terminal `x` at the
node reached through `a` keeps the differently named terminal `c`. -/
theorem C8_terminal_child_independence_witness :
    ∃ n2, nodeAtPath (Tree.mk [("a", some (Tree.mk [("c", none), ("x", none)]))]) ["a"] =
        some n2 ∧ ("x", none) ∈ n2.entries ∧
      ∀ k v, k ≠ "x" → (k, v) ∈ (Tree.mk [("c", none)] : Tree).entries → (k, v) ∈ n2.entries :=
  (C8_terminal_child_independence ["a"] "x" (Tree.mk [("a", some (Tree.mk [("c", none)]))])
      (Tree.mk [("a", some (Tree.mk [("c", none), ("x", none)]))]) rfl).1
    (Tree.mk [("c", none)]) rfl

/-! ### Helper lemmas about dict keys (for C4) -/

/-- Unique keys at a node (an invariant of every dict the program builds). -/
def keysNodup (es : List (String × Option Tree)) : Prop :=
  (es.map Prod.fst).Nodup

theorem lookup_none_keys : ∀ (es : List (String × Option Tree)) (w : String),
    List.lookup w es = none → ∀ e ∈ es, e.1 ≠ w := by
  intro es w
  induction es with
  | nil => intro _ e he; simp at he
  | cons e0 es ih =>
    intro h e he
    obtain ⟨k1, v1⟩ := e0
    rw [List.lookup_cons] at h
    rcases hw : (w == k1) with _ | _
    · rw [hw] at h
      rcases List.mem_cons.mp he with he | he
      · subst he
        simp only [ne_eq]
        intro hh
        rw [hh] at hw
        simp at hw
      · exact ih h e he
    · rw [hw] at h
      cases h

theorem lookup_some_any : ∀ (es : List (String × Option Tree)) (w : String) (v : Option Tree),
    List.lookup w es = some v → es.any (fun e => e.1 == w) = true := by
  intro es w v
  induction es with
  | nil => intro h; cases h
  | cons e0 es ih =>
    intro h
    obtain ⟨k1, v1⟩ := e0
    rw [List.lookup_cons] at h
    rcases hw : (w == k1) with _ | _
    · rw [hw] at h
      simp only [List.any_cons, Bool.or_eq_true]
      exact Or.inr (ih h)
    · simp only [List.any_cons, Bool.or_eq_true]
      left
      simp only [beq_iff_eq] at hw ⊢
      exact hw.symm

theorem lookup_of_mem_nodup : ∀ (es : List (String × Option Tree)),
    keysNodup es → ∀ w v, (w, v) ∈ es → List.lookup w es = some v := by
  intro es
  induction es with
  | nil => intro _ w v h; simp at h
  | cons e0 es ih =>
    intro hnd w v h
    obtain ⟨k1, v1⟩ := e0
    unfold keysNodup at hnd
    simp only [List.map_cons, List.nodup_cons] at hnd
    rcases List.mem_cons.mp h with hmem | hmem
    · injection hmem with h1 h2
      subst h1
      subst h2
      rw [List.lookup_cons]
      simp
    · have hne : w ≠ k1 := by
        intro hh
        exact hnd.1 (List.mem_map.mpr ⟨(w, v), hmem, hh⟩)
      rw [List.lookup_cons]
      have : (w == k1) = false := by simpa using hne
      rw [this]
      exact ih hnd.2 w v hmem

theorem assign_keys_mem (es : List (String × Option Tree)) (k : String) (v : Option Tree)
    (h : es.any (fun e => e.1 == k) = true) :
    (assign es k v).map Prod.fst = es.map Prod.fst := by
  unfold assign
  rw [if_pos h, List.map_map]
  apply List.map_congr_left
  intro e _
  by_cases he : (e.1 == k) = true
  · simp only [Function.comp_apply, if_pos he]
    simp only [beq_iff_eq] at he
    exact he.symm
  · simp only [Function.comp_apply, if_neg he]

theorem assign_keys_new (es : List (String × Option Tree)) (k : String) (v : Option Tree)
    (h : es.any (fun e => e.1 == k) = false) :
    (assign es k v).map Prod.fst = es.map Prod.fst ++ [k] := by
  unfold assign
  rw [if_neg (by simp [h]), List.map_append]
  rfl

theorem assign_keysNodup (es : List (String × Option Tree)) (k : String) (v : Option Tree)
    (h : keysNodup es) : keysNodup (assign es k v) := by
  unfold keysNodup at h ⊢
  rcases ha : es.any (fun e => e.1 == k) with _ | _
  · rw [assign_keys_new es k v ha]
    rw [List.nodup_append]
    refine ⟨h, by simp, ?_⟩
    intro x hx
    simp only [List.mem_singleton]
    intro hk
    subst hk
    obtain ⟨e, he, hfst⟩ := List.mem_map.mp hx
    have h2 := List.any_eq_false.mp ha e he
    rw [hfst] at h2
    simp at h2
  · rw [assign_keys_mem es k v ha]
    exact h

theorem insertEntry_keysNodup : ∀ (ws : List String) (r : String) (t t2 : Tree),
    insertEntry ws t r = some t2 → keysNodup t.entries → keysNodup t2.entries := by
  intro ws
  cases ws with
  | nil =>
    intro r t t2 h hnd
    obtain ⟨es⟩ := t
    simp only [insertEntry, Option.some.injEq] at h
    subst h
    exact assign_keysNodup es r none hnd
  | cons w ws =>
    intro r t t2 h hnd
    obtain ⟨es⟩ := t
    simp only [insertEntry] at h
    split at h
    · rename_i sub hlk
      split at h
      · rename_i sub2 hsub
        simp only [Option.some.injEq] at h
        subst h
        exact assign_keysNodup es w (some sub2) hnd
      · cases h
    · cases h
    · rename_i hlk
      split at h
      · rename_i sub2 hsub
        simp only [Option.some.injEq] at h
        subst h
        unfold keysNodup at hnd ⊢
        simp only [Tree.entries, List.map_append]
        rw [List.nodup_append]
        refine ⟨hnd, by simp, ?_⟩
        intro x hx
        simp only [List.map_cons, List.map_nil, List.mem_singleton]
        intro hk
        obtain ⟨e, he, hfst⟩ := List.mem_map.mp hx
        exact lookup_none_keys es w hlk e he (hfst.trans hk)
      · cases h

theorem insertEntry_preserves_root_term : ∀ (ws : List String) (r : String) (t t2 : Tree)
    (x : String), insertEntry ws t r = some t2 → keysNodup t.entries →
    (x, none) ∈ t.entries → (x, none) ∈ t2.entries := by
  intro ws
  cases ws with
  | nil =>
    intro r t t2 x h _ hx
    obtain ⟨es⟩ := t
    simp only [insertEntry, Option.some.injEq] at h
    subst h
    by_cases hxr : x = r
    · subst hxr
      exact assign_mem_self es x none
    · exact assign_mem_of_ne es r none x none hxr hx
  | cons w ws =>
    intro r t t2 x h hnd hx
    obtain ⟨es⟩ := t
    simp only [insertEntry] at h
    split at h
    · rename_i sub hlk
      split at h
      · rename_i sub2 hsub
        simp only [Option.some.injEq] at h
        subst h
        by_cases hxw : x = w
        · subst hxw
          rw [lookup_of_mem_nodup es hnd x none hx] at hlk
          cases hlk
        · exact assign_mem_of_ne es w (some sub2) x none hxw hx
      · cases h
    · cases h
    · rename_i hlk
      split at h
      · rename_i sub2 hsub
        simp only [Option.some.injEq] at h
        subst h
        simp only [Tree.entries] at hx ⊢
        exact List.mem_append.mpr (Or.inl hx)
      · cases h

theorem dict_fold_preserves (f : String → String) :
    ∀ (d : List (String × String)) (t root : Tree),
      d.foldlM (fun t e => insertEntry ((pysplit e.1).map f) t e.2) t = some root →
      keysNodup t.entries →
      keysNodup root.entries ∧ ∀ x, (x, none) ∈ t.entries → (x, none) ∈ root.entries := by
  intro d
  induction d with
  | nil =>
    intro t root h hnd
    simp only [List.foldlM_nil] at h
    cases h
    exact ⟨hnd, fun x hx => hx⟩
  | cons e d ih =>
    intro t root h hnd
    rw [List.foldlM_cons] at h
    rcases h1 : insertEntry ((pysplit e.1).map f) t e.2 with _ | t1
    · rw [h1] at h
      cases h
    · rw [h1] at h
      obtain ⟨hnd2, hpres⟩ := ih t1 root h (insertEntry_keysNodup _ _ _ _ h1 hnd)
      exact ⟨hnd2, fun x hx => hpres x (insertEntry_preserves_root_term _ _ _ _ x h1 hnd hx)⟩

/-! ### Monotonicity of the accumulated match list (for C4) -/

theorem foldlM_inv {α σ : Type} (P : σ → Prop) (f : σ → α → Option σ) :
    ∀ (l : List α) (s s2 : σ), l.foldlM f s = some s2 → P s →
      (∀ s s2 a, a ∈ l → f s a = some s2 → P s → P s2) → P s2 := by
  intro l
  induction l with
  | nil =>
    intro s s2 h hp _
    simp only [List.foldlM_nil] at h
    cases h
    exact hp
  | cons a l ih =>
    intro s s2 h hp hstep
    rw [List.foldlM_cons] at h
    rcases h1 : f s a with _ | s1 <;> rw [h1] at h
    · cases h
    · exact ih s1 s2 h (hstep s s1 a (by simp) h1 hp)
        (fun s s2 a ha => hstep s s2 a (by simp [ha]))

theorem rootStep_mono (c : ℚ) (i : ℕ) (word : String) (acc : List State × List Match)
    (e : String × Option Tree) : ∀ x ∈ acc.2, x ∈ (rootStep c i word acc e).2 := by
  intro x hx
  rcases hw : word_matches c e.1 word with _ | rv
  · by_cases hn : e.2.isNone = true <;> simp [rootStep, hw, hn, hx]
  · by_cases hn : e.2.isNone = true <;> by_cases hr : rv = 0 <;>
      simp [rootStep, hw, hn, hr, hx]

theorem rootStep_term_self (c : ℚ) (i : ℕ) (word : String)
    (acc : List State × List Match) (r : String) :
    Match.mk i (i + 1) r 0 ∈ (rootStep c i word acc (r, none)).2 := by
  rcases hw : word_matches c r word with _ | rv
  · simp [rootStep, hw]
  · by_cases hr : rv = 0 <;> simp [rootStep, hw, hr]

theorem rootScan_term_mem (c : ℚ) (i : ℕ) (word : String) (r : String) :
    ∀ (es : List (String × Option Tree)) (acc : List State × List Match),
      (r, none) ∈ es → Match.mk i (i + 1) r 0 ∈ (es.foldl (rootStep c i word) acc).2 := by
  intro es
  induction es with
  | nil => intro acc h; simp at h
  | cons e es ih =>
    intro acc h
    rcases List.mem_cons.mp h with hmem | hmem
    · subst hmem
      rw [List.foldl_cons]
      exact foldl_inv (fun a => Match.mk i (i + 1) r 0 ∈ a.2) (rootStep c i word) es _
        (rootStep_term_self c i word acc r)
        (fun s a _ hp => rootStep_mono c i word s a _ hp)
    · rw [List.foldl_cons]
      exact ih _ hmem

theorem advanceStep_mono (c : ℚ) (i : ℕ) (word : String) (st : State)
    (acc : List State × List Match) (e : String × Option Tree)
    (acc2 : List State × List Match) (h : advanceStep c i word st acc e = some acc2) :
    ∀ x ∈ acc.2, x ∈ acc2.2 := by
  intro x hx
  simp only [advanceStep] at h
  rcases hw : word_matches c e.1 word with _ | rv <;> simp only [hw] at h
  · by_cases hn : e.2.isNone = true
    · rw [if_pos hn] at h
      cases h
      simp [hx]
    · rw [if_neg hn] at h
      cases h
      exact hx
  · by_cases hr : rv = 0
    · rw [if_pos hr] at h
      by_cases hn : e.2.isNone = true
      · rw [if_pos hn] at h
        cases h
        simp [hx]
      · rw [if_neg hn] at h
        cases h
        exact hx
    · rw [if_neg hr] at h
      rcases hu : st.update e.2 rv with _ | st2
      · simp [hu] at h
      · simp only [hu] at h
        by_cases hn : e.2.isNone = true
        · rw [if_pos hn] at h
          cases h
          simp [hx]
        · rw [if_neg hn] at h
          cases h
          exact hx

theorem advanceState_mono (c : ℚ) (i : ℕ) (word : String)
    (acc : List State × List Match) (st : State) (acc2 : List State × List Match)
    (h : advanceState c i word acc st = some acc2) : ∀ x ∈ acc.2, x ∈ acc2.2 := by
  intro x hx
  unfold advanceState at h
  rcases hd : st.d with _ | node <;> rw [hd] at h
  · cases h
  · exact foldlM_inv (fun a => x ∈ a.2) (advanceStep c i word st) node.entries acc acc2 h hx
      (fun s s2 a _ hf hp => advanceStep_mono c i word st s a s2 hf x hp)

theorem consume_mono (c : ℚ) (root : Tree) (i : ℕ) (word : String) (states : List State)
    (ms : List Match) (res : List State × List Match)
    (h : consume c root i word states ms = some res) : ∀ x ∈ ms, x ∈ res.2 := by
  intro x hx
  unfold consume at h
  have h1 : x ∈ (rootScan c root i word ([], ms)).2 := by
    unfold rootScan
    exact foldl_inv (fun a => x ∈ a.2) _ root.entries ([], ms) hx
      (fun s a _ hp => rootStep_mono c i word s a x hp)
  exact foldlM_inv (fun a => x ∈ a.2) _ states _ res h h1
    (fun s s2 st _ hf hp => advanceState_mono c i word s st s2 hf x hp)

theorem consume_root_term (c : ℚ) (root : Tree) (i : ℕ) (word : String)
    (states : List State) (ms : List Match) (res : List State × List Match) (r : String)
    (hr : (r, none) ∈ root.entries) (h : consume c root i word states ms = some res) :
    Match.mk i (i + 1) r 0 ∈ res.2 := by
  unfold consume at h
  have h1 : Match.mk i (i + 1) r 0 ∈ (rootScan c root i word ([], ms)).2 :=
    rootScan_term_mem c i word r root.entries ([], ms) hr
  exact foldlM_inv (fun a => Match.mk i (i + 1) r 0 ∈ a.2) _ states _ res h h1
    (fun s s2 st _ hf hp => advanceState_mono c i word s st s2 hf _ hp)

theorem flushState_mono (n : ℕ) (ms : List Match) (st : State) (ms2 : List Match)
    (h : flushState n ms st = some ms2) : ∀ x ∈ ms, x ∈ ms2 := by
  intro x hx
  unfold flushState at h
  rcases hd : st.d with _ | node <;> rw [hd] at h
  · cases h
  · simp only [Option.some.injEq] at h
    subst h
    exact foldl_inv (fun a => x ∈ a) _ node.entries ms hx
      (fun s e _ hp => by by_cases hn : e.2.isNone = true <;> simp [hn, hp])

theorem flush_mono (n : ℕ) (states : List State) (ms res : List Match)
    (h : flush n states ms = some res) : ∀ x ∈ ms, x ∈ res := by
  intro x hx
  unfold flush at h
  exact foldlM_inv (fun a => x ∈ a) (flushState n) states ms res h hx
    (fun s s2 st _ hf hp => flushState_mono n s st s2 hf x hp)

theorem runConsume_root_term (c : ℚ) (root : Tree) (f : String → String) (r : String)
    (hr : (r, none) ∈ root.entries) :
    ∀ (ws : List String) (i : ℕ) (acc res : List State × List Match),
      runConsume c root f i ws acc = some res →
      (∀ x ∈ acc.2, x ∈ res.2) ∧
      ∀ j, j < ws.length → Match.mk (i + j) (i + j + 1) r 0 ∈ res.2 := by
  intro ws
  induction ws with
  | nil =>
    intro i acc res h
    simp only [runConsume, Option.some.injEq] at h
    subst h
    exact ⟨fun x hx => hx, fun j hj => absurd hj (by simp)⟩
  | cons w ws ih =>
    intro i acc res h
    simp only [runConsume] at h
    rcases hc : consume c root i (f w) acc.1 acc.2 with _ | acc2 <;> rw [hc] at h
    · cases h
    · obtain ⟨ihmono, ihj⟩ := ih (i + 1) acc2 res h
      constructor
      · intro x hx
        exact ihmono x (consume_mono _ _ _ _ _ _ _ hc x hx)
      · intro j hj
        cases j with
        | zero =>
          have hz := consume_root_term c root i (f w) acc.1 acc.2 acc2 r hr hc
          simpa using ihmono _ hz
        | succ j2 =>
          have hs := ihj j2 (by simpa using hj)
          have heq : i + (j2 + 1) = i + 1 + j2 := by omega
          rw [heq]
          exact hs

theorem dict_to_tree_root_term (f : String → String) :
    ∀ (d : List (String × String)) (t root : Tree),
      d.foldlM (fun t e => insertEntry ((pysplit e.1).map f) t e.2) t = some root →
      keysNodup t.entries →
      ∀ p r, (p, r) ∈ d → pysplit p = [] → (r, none) ∈ root.entries := by
  intro d
  induction d with
  | nil => intro t root _ _ p r hm _; simp at hm
  | cons e d ih =>
    intro t root h hnd p r hm hp
    rw [List.foldlM_cons] at h
    rcases h1 : insertEntry ((pysplit e.1).map f) t e.2 with _ | t1 <;> rw [h1] at h
    · cases h
    · rcases List.mem_cons.mp hm with hmem | hmem
      · subst hmem
        dsimp only at h1
        rw [hp] at h1
        obtain ⟨es⟩ := t
        simp only [List.map_nil, insertEntry, Option.some.injEq] at h1
        have hnd1 : keysNodup t1.entries := by
          rw [← h1]
          exact assign_keysNodup es r none hnd
        have hm1 : (r, none) ∈ t1.entries := by
          rw [← h1]
          exact assign_mem_self es r none
        exact (dict_fold_preserves f d t1 root h hnd1).2 r hm1
      · exact ih t1 root h (insertEntry_keysNodup _ _ _ _ h1 hnd) p r hmem hp

/-- C4 counterexample: the claim says every *single-word phrase* makes the
matcher emit a zero-score one-token match at every token position.  A
single-word phrase puts its terminal at a depth-one node, not at the root,
so nothing fires unconditionally: with mapping `a -> X` (cutoff
`mkRat 17 20 = 0.85`) and the single dissimilar token `b`, the emitted
match list is empty — no `Match(0, 1, X, 0)` is produced. -/
theorem C4_counterexample :
    matchesOfToks [("a", "X")] defaultNormalize (mkRat 17 20) ["b"] = some [] := by
  decide

/-- C4 (amended): the unconditional zero-score emission belongs to
terminals recorded *directly at the Trie root*, which arise exactly from
mapping entries whose phrase splits into zero words (empty or
whitespace-only phrases), not from single-word phrases.  For every such
entry `(p, r)` and every token position `i` of the input, the matcher
emits `Match(i, i+1, r, 0)` before any similarity test on the token. -/
theorem C4_root_terminal_fires_everywhere (m : List (String × String))
    (f : String → String) (c : ℚ) (p r : String) (toks : List String) (msf : List Match)
    (hm : (p, r) ∈ m) (hp : pysplit p = []) (h : matchesOfToks m f c toks = some msf) :
    ∀ i, i < toks.length → Match.mk i (i + 1) r 0 ∈ msf := by
  intro i hi
  unfold matchesOfToks at h
  rcases hd : dict_to_tree m f with _ | root
  · simp [hd] at h
  · simp only [hd] at h
    have hroot : (r, none) ∈ root.entries :=
      dict_to_tree_root_term f m (Tree.mk []) root hd (by simp [keysNodup, Tree.entries])
        p r hm hp
    unfold helperProcess at h
    rcases hrc : runConsume c root f 0 toks ([], []) with _ | ⟨states, ms⟩
    · simp [hrc] at h
    · simp only [hrc] at h
      have hmem := (runConsume_root_term c root f r hroot toks 0 ([], [])
        (states, ms) hrc).2 i hi
      simp only [Nat.zero_add] at hmem
      exact flush_mono toks.length states ms msf h _ hmem

/-- Witness for C4: the empty-phrase entry `"" -> Z` fires its zero-score
match at position 0 of the token list `[q, w]`. -/
theorem C4_root_terminal_fires_everywhere_witness :
    Match.mk 0 1 "Z" 0 ∈ [Match.mk 0 1 "Z" 0, Match.mk 1 2 "Z" 0] :=
  C4_root_terminal_fires_everywhere [("", "Z")] defaultNormalize (mkRat 17 20) "" "Z"
    ["q", "w"] [Match.mk 0 1 "Z" 0, Match.mk 1 2 "Z" 0] (by simp) (by decide) (by decide)
    0 (by decide)

/-! ### Identity when no qualifying chain exists (for C2) -/

theorem take_one_split {α : Type} (l : List α) (n : ℕ) (hn : 1 ≤ n) :
    l.take n = l.take 1 ++ (l.drop 1).take (n - 1) := by
  cases l with
  | nil => simp
  | cons x xs =>
    obtain ⟨n2, rfl⟩ : ∃ n2, n = n2 + 1 := ⟨n - 1, by omega⟩
    simp

theorem renderSpec_fst_take (words spaces : List String)
    (ms : List Match) (pos k : ℕ) (hsf : startsFrom k ms) (hpk : pos ≤ k)
    (hk : k ≤ words.length) (hms : ∀ m ∈ ms, m.i ≤ words.length) :
    (renderSpec words spaces pos ms).1.take (k - pos) = (words.drop pos).take (k - pos) := by
  cases ms with
  | nil => rfl
  | cons m rest =>
    have hmi : k ≤ m.i := hsf
    have hlen : k - pos ≤ ((words.drop pos).take (m.i - pos)).length := by
      simp only [List.length_take, List.length_drop]
      omega
    rw [renderSpec, List.take_append_of_le_length hlen, List.take_take]
    congr 1
    omega

theorem renderSpec_snd_take (words spaces : List String)
    (ms : List Match) (pos k : ℕ) (hsf : startsFrom k ms) (hpk : pos ≤ k)
    (hk : k ≤ spaces.length) (hms : ∀ m ∈ ms, m.i ≤ spaces.length) :
    (renderSpec words spaces pos ms).2.take (k - pos) = (spaces.drop pos).take (k - pos) := by
  cases ms with
  | nil => rfl
  | cons m rest =>
    have hmi : k ≤ m.i := hsf
    have hlen : k - pos ≤ ((spaces.drop pos).take (m.i - pos)).length := by
      simp only [List.length_take, List.length_drop]
      omega
    rw [renderSpec, List.append_assoc, List.take_append_of_le_length hlen, List.take_take]
    congr 1
    omega

theorem renderSpec_fst_drop (words spaces : List String)
    (ms : List Match) (pos p : ℕ) (hsf : startsFrom p ms) (hpk : pos ≤ p)
    (hms : ∀ m ∈ ms, m.i ≤ words.length) :
    (renderSpec words spaces pos ms).1.drop (p - pos) = (renderSpec words spaces p ms).1 := by
  cases ms with
  | nil =>
    simp only [renderSpec, List.drop_drop]
    congr 1
    omega
  | cons m rest =>
    have hmi : p ≤ m.i := hsf
    have hmw : m.i ≤ words.length := hms m (by simp)
    have hlen : p - pos ≤ ((words.drop pos).take (m.i - pos)).length := by
      simp only [List.length_take, List.length_drop]
      omega
    rw [renderSpec, renderSpec, List.drop_append_of_le_length hlen, List.drop_take,
      List.drop_drop]
    have e1 : pos + (p - pos) = p := by omega
    have e2 : m.i - pos - (p - pos) = m.i - p := by omega
    rw [e1, e2]

theorem renderSpec_snd_drop (words spaces : List String)
    (ms : List Match) (pos p : ℕ) (hsf : startsFrom p ms) (hpk : pos ≤ p)
    (hms : ∀ m ∈ ms, m.i ≤ spaces.length) :
    (renderSpec words spaces pos ms).2.drop (p - pos) = (renderSpec words spaces p ms).2 := by
  cases ms with
  | nil =>
    simp only [renderSpec, List.drop_drop]
    congr 1
    omega
  | cons m rest =>
    have hmi : p ≤ m.i := hsf
    have hmw : m.i ≤ spaces.length := hms m (by simp)
    have hlen : p - pos ≤ ((spaces.drop pos).take (m.i - pos)).length := by
      simp only [List.length_take, List.length_drop]
      omega
    have hlen2 : p - pos ≤ ((spaces.drop pos).take (m.i - pos) ++
        (spaces.drop (m.j - 1)).take 1).length := by
      rw [List.length_append]
      omega
    rw [renderSpec, renderSpec, List.drop_append_of_le_length hlen2,
      List.drop_append_of_le_length hlen, List.drop_take, List.drop_drop]
    have e1 : pos + (p - pos) = p := by omega
    have e2 : m.i - pos - (p - pos) = m.i - p := by omega
    rw [e1, e2]

theorem renderSpec_snd_step (words spaces : List String)
    (ms : List Match) (p : ℕ) (hsf : startsFrom (p + 1) ms) :
    (renderSpec words spaces p ms).2 =
      (spaces.drop p).take 1 ++ (renderSpec words spaces (p + 1) ms).2 := by
  cases ms with
  | nil =>
    simp only [renderSpec]
    conv_lhs => rw [← List.take_append_drop 1 (spaces.drop p)]
    rw [List.drop_drop]
  | cons m rest =>
    have hmi : p + 1 ≤ m.i := hsf
    simp only [renderSpec]
    rw [take_one_split (spaces.drop p) (m.i - p) (by omega), List.drop_drop]
    have e : m.i - p - 1 = m.i - (p + 1) := by omega
    rw [e]
    simp only [List.append_assoc]

/-- C10: the reconstruction of `process` (`applyMatches`, the reversed
splice loop) coincides with the specification's frame description
(`renderSpec`): for every start-ordered, non-overlapping selected match
list whose spans are nonempty and in range, every word and separator
outside the selected spans is kept verbatim and in order; inside a span
`[i, j)` the words become the single replacement and the separators at
`i..j-2` are discarded while the separator at `j-1` is retained. -/
theorem C10_reconstruction_frame (words spaces : List String) :
    ∀ (ms : List Match),
      List.Chain' (fun a b => a.j ≤ b.i) ms →
      (∀ m ∈ ms, m.i < m.j ∧ m.j ≤ words.length ∧ m.j ≤ spaces.length) →
      applyMatches ms words spaces = renderSpec words spaces 0 ms := by
  intro ms
  induction ms with
  | nil => intro _ _; simp [applyMatches, renderSpec]
  | cons m rest ih =>
    intro hchain hbounds
    obtain ⟨hij, hjw, hjs⟩ := hbounds m (by simp)
    have hsf : startsFrom m.j rest := by
      cases rest with
      | nil => trivial
      | cons m2 rest2 => exact (List.chain'_cons.mp hchain).1
    have hsfi : startsFrom m.i rest := by
      cases rest with
      | nil => trivial
      | cons m2 rest2 =>
        have := (List.chain'_cons.mp hchain).1
        show m.i ≤ m2.i
        omega
    have hwbound : ∀ m2 ∈ rest, m2.i ≤ words.length := by
      intro m2 hm2
      obtain ⟨h1, h2, _⟩ := hbounds m2 (by simp [hm2])
      omega
    have hsbound : ∀ m2 ∈ rest, m2.i ≤ spaces.length := by
      intro m2 hm2
      obtain ⟨h1, _, h2⟩ := hbounds m2 (by simp [hm2])
      omega
    have hr : applyMatches rest words spaces = renderSpec words spaces 0 rest :=
      ih (List.Chain'.tail hchain) (fun m2 hm2 => hbounds m2 (by simp [hm2]))
    show ((applyMatches rest words spaces).1.take m.i ++
          m.s :: (applyMatches rest words spaces).1.drop m.j,
        (applyMatches rest words spaces).2.take m.i ++
          (applyMatches rest words spaces).2.drop (m.j - 1)) =
      renderSpec words spaces 0 (m :: rest)
    rw [hr]
    have hA : (renderSpec words spaces 0 rest).1.take m.i = words.take m.i := by
      have := renderSpec_fst_take words spaces rest 0 m.i hsfi (by omega) (by omega) hwbound
      simpa using this
    have hB : (renderSpec words spaces 0 rest).1.drop m.j =
        (renderSpec words spaces m.j rest).1 := by
      have := renderSpec_fst_drop words spaces rest 0 m.j hsf (by omega) hwbound
      simpa using this
    have hC : (renderSpec words spaces 0 rest).2.take m.i = spaces.take m.i := by
      have := renderSpec_snd_take words spaces rest 0 m.i hsfi (by omega) (by omega) hsbound
      simpa using this
    have hD : (renderSpec words spaces 0 rest).2.drop (m.j - 1) =
        (spaces.drop (m.j - 1)).take 1 ++ (renderSpec words spaces m.j rest).2 := by
      have hsf2 : startsFrom (m.j - 1) rest := by
        cases rest with
        | nil => trivial
        | cons m2 rest2 =>
          have : m.j ≤ m2.i := hsf
          show m.j - 1 ≤ m2.i
          omega
      have h1 := renderSpec_snd_drop words spaces rest 0 (m.j - 1) hsf2 (by omega) hsbound
      have hsf3 : startsFrom (m.j - 1 + 1) rest := by
        cases rest with
        | nil => trivial
        | cons m2 rest2 =>
          have : m.j ≤ m2.i := hsf
          show m.j - 1 + 1 ≤ m2.i
          omega
      have h2 := renderSpec_snd_step words spaces rest (m.j - 1) hsf3
      have hj1 : m.j - 1 + 1 = m.j := by omega
      rw [hj1] at h2
      simpa using h1.trans h2
    rw [hA, hB, hC, hD, renderSpec]
    simp

/-- Witness for C10 at a concrete selected match list. -/
theorem C10_reconstruction_frame_witness :
    applyMatches [⟨1, 3, "R", 1⟩] ["a", "b", "c", "d"] ["x", "y", "z", "w"] =
      renderSpec ["a", "b", "c", "d"] ["x", "y", "z", "w"] 0 [⟨1, 3, "R", 1⟩] :=
  C10_reconstruction_frame ["a", "b", "c", "d"] ["x", "y", "z", "w"] [⟨1, 3, "R", 1⟩]
    (by simp) (by decide)

/-! ### Exact-match guarantee (for C1) -/

theorem isWordChar_space : isWordChar ' ' = false := by decide

theorem takeRun_run_append (p : Char → Bool) : ∀ (xs ys : List Char),
    (∀ c ∈ xs, p c = true) →
    takeRun p (xs ++ ys) = (xs ++ (takeRun p ys).1, (takeRun p ys).2) := by
  intro xs
  induction xs with
  | nil => intro ys _; simp
  | cons x xs ih =>
    intro ys h
    have hx : p x = true := h x (by simp)
    simp only [List.cons_append, takeRun, hx, if_true, List.append_eq]
    rw [ih ys (fun c hc => h c (by simp [hc]))]

theorem takeRun_all (p : Char → Bool) (xs : List Char) (h : ∀ c ∈ xs, p c = true) :
    takeRun p xs = (xs, []) := by
  have h2 := takeRun_run_append p xs [] h
  simpa [takeRun] using h2

theorem takeRun_cons_false (p : Char → Bool) (c : Char) (cs : List Char) (h : p c = false) :
    takeRun p (c :: cs) = ([], c :: cs) := by
  simp [takeRun, h]

theorem wordShaped_ne (w : String) (h : wordShaped w = true) : w.data ≠ [] := by
  unfold wordShaped at h
  rw [Bool.and_eq_true] at h
  intro he
  rw [he] at h
  simp at h

theorem wordShaped_all (w : String) (h : wordShaped w = true) :
    ∀ c ∈ w.data, isWordChar c = true := by
  unfold wordShaped at h
  rw [Bool.and_eq_true] at h
  have h2 := h.2
  rw [List.all_eq_true] at h2
  exact h2

theorem mkPhrase_cons_cons (w v : String) (vs : List String) :
    (mkPhrase (w :: v :: vs)).data = w.data ++ ' ' :: (mkPhrase (v :: vs)).data := by
  show (w ++ " " ++ mkPhrase (v :: vs)).data = _
  rw [String.data_append, String.data_append, List.append_assoc]
  rfl

theorem mkPhrase_head (v : String) (vs : List String) :
    ∃ t, (mkPhrase (v :: vs)).data = v.data ++ t := by
  cases vs with
  | nil => exact ⟨[], by simp [mkPhrase]⟩
  | cons u us => exact ⟨' ' :: (mkPhrase (u :: us)).data, mkPhrase_cons_cons v u us⟩

theorem wordsSepsF_mkPhrase : ∀ (ws : List String), ws ≠ [] → ws.all wordShaped = true →
    ∀ fuel : ℕ, (mkPhrase ws).data.length < fuel →
    wordsSepsF fuel (mkPhrase ws).data = pairsOf ws := by
  intro ws
  induction ws with
  | nil => intro h; exact absurd rfl h
  | cons w ws ih =>
    intro _ hall fuel hfuel
    have hw : wordShaped w = true := by
      rw [List.all_cons, Bool.and_eq_true] at hall
      exact hall.1
    have hwall := wordShaped_all w hw
    cases fuel with
    | zero => omega
    | succ n =>
      cases ws with
      | nil =>
        have hmk : mkPhrase [w] = w := rfl
        rw [hmk] at hfuel ⊢
        simp only [wordsSepsF, takeRun_all isWordChar w.data hwall]
        simp [pairsOf]
      | cons v vs =>
        have hv : wordShaped v = true := by
          rw [List.all_cons, List.all_cons, Bool.and_eq_true, Bool.and_eq_true] at hall
          exact hall.2.1
        obtain ⟨t, ht⟩ := mkPhrase_head v vs
        rcases hvd : v.data with _ | ⟨hc, t2⟩
        · exact absurd hvd (wordShaped_ne v hv)
        · have hhc : isWordChar hc = true := by
            apply wordShaped_all v hv
            rw [hvd]
            simp
          have hrest : (mkPhrase (v :: vs)).data = hc :: (t2 ++ t) := by
            rw [ht, hvd]
            rfl
          have htr : takeRun isWordChar (w.data ++ ' ' :: (mkPhrase (v :: vs)).data) =
              (w.data, ' ' :: (mkPhrase (v :: vs)).data) := by
            rw [takeRun_run_append isWordChar w.data _ hwall,
              takeRun_cons_false isWordChar ' ' _ isWordChar_space]
            simp
          have hsep : takeRun (fun c => !isWordChar c) (' ' :: (mkPhrase (v :: vs)).data) =
              ([' '], (mkPhrase (v :: vs)).data) := by
            rw [hrest]
            rw [show (' ' :: hc :: (t2 ++ t) : List Char) = [' '] ++ hc :: (t2 ++ t) from rfl]
            rw [takeRun_run_append _ [' '] _ (by
              intro c hmem
              rw [List.mem_singleton] at hmem
              subst hmem
              rw [isWordChar_space]
              rfl)]
            rw [takeRun_cons_false _ hc _ (by rw [hhc]; rfl)]
            rfl
          rw [mkPhrase_cons_cons w v vs] at hfuel ⊢
          simp only [wordsSepsF, htr, hsep]
          rw [if_neg (by simp : ¬((' ' :: (mkPhrase (v :: vs)).data : List Char) = []))]
          rw [ih (by simp) (by
            rw [List.all_cons, Bool.and_eq_true] at hall
            exact hall.2) n (by
            rw [List.length_append] at hfuel
            simp only [List.length_cons] at hfuel
            omega)]
          simp only [pairsOf]

theorem wordsSeps_mkPhrase (ws : List String) (h : ws ≠ []) (hall : ws.all wordShaped = true) :
    wordsSeps (mkPhrase ws).data = pairsOf ws :=
  wordsSepsF_mkPhrase ws h hall _ (by omega)

theorem pairsOf_fst : ∀ ws : List String, (pairsOf ws).map Prod.fst = ws := by
  intro ws
  induction ws with
  | nil => rfl
  | cons w ws ih =>
    cases ws with
    | nil => rfl
    | cons v vs =>
      simp only [pairsOf, List.map_cons]
      rw [ih]

theorem pairsOf_snd_last : ∀ ws : List String, ws ≠ [] →
    ((pairsOf ws).map Prod.snd).drop (ws.length - 1) = [""] := by
  intro ws
  induction ws with
  | nil => intro h; exact absurd rfl h
  | cons w ws ih =>
    intro _
    cases ws with
    | nil => rfl
    | cons v vs =>
      have h2 := ih (by simp)
      simp only [pairsOf, List.map_cons, List.length_cons]
      rw [show vs.length + 1 + 1 - 1 = (vs.length + 1 - 1) + 1 from by omega,
        List.drop_succ_cons]
      exact h2

theorem isWordChar_not_white (c : Char) (h : isWordChar c = true) : c.isWhitespace = false := by
  by_contra hws
  rw [Bool.not_eq_false] at hws
  have hd : ((c = ' ' ∨ c = '\t') ∨ c = '\r') ∨ c = '\n' := by
    simpa [Char.isWhitespace] using hws
  rcases hd with ((rfl | rfl) | rfl) | rfl <;> exact absurd h (by decide)

theorem pysplitCharsF_empty : ∀ fuel : ℕ, pysplitCharsF fuel [] = [] := by
  intro fuel
  cases fuel <;> rfl

theorem pysplitCharsF_mkPhrase : ∀ (ws : List String), ws ≠ [] → ws.all wordShaped = true →
    ∀ fuel : ℕ, (mkPhrase ws).data.length < fuel →
    pysplitCharsF fuel (mkPhrase ws).data = ws.map String.data := by
  intro ws
  induction ws with
  | nil => intro h; exact absurd rfl h
  | cons w ws ih =>
    intro _ hall fuel hfuel
    have hw : wordShaped w = true := by
      rw [List.all_cons, Bool.and_eq_true] at hall
      exact hall.1
    have hwall := wordShaped_all w hw
    have hnw : ∀ c ∈ w.data, (!c.isWhitespace) = true := fun c hc => by
      rw [isWordChar_not_white c (hwall c hc)]
      rfl
    rcases hwd : w.data with _ | ⟨h1, t1⟩
    · exact absurd hwd (wordShaped_ne w hw)
    have hh1 : h1.isWhitespace = false := by
      apply isWordChar_not_white
      apply hwall
      rw [hwd]
      simp
    cases fuel with
    | zero => omega
    | succ n =>
      cases ws with
      | nil =>
        have hmk : mkPhrase [w] = w := rfl
        rw [hmk] at hfuel ⊢
        have htr : takeRun (fun ch => !ch.isWhitespace) w.data = (w.data, []) :=
          takeRun_all _ _ hnw
        rw [hwd] at htr ⊢
        simp [pysplitCharsF, hh1, htr, pysplitCharsF_empty, hwd]
      | cons v vs =>
        rw [mkPhrase_cons_cons w v vs] at hfuel ⊢
        have htr : takeRun (fun ch => !ch.isWhitespace)
            (w.data ++ ' ' :: (mkPhrase (v :: vs)).data) =
            (w.data, ' ' :: (mkPhrase (v :: vs)).data) := by
          rw [takeRun_run_append _ w.data _ hnw,
            takeRun_cons_false _ ' ' _ (by decide)]
          simp
        rw [hwd] at htr ⊢
        simp only [List.cons_append] at htr ⊢
        simp only [pysplitCharsF, hh1, Bool.false_eq_true, if_false, htr]
        have hlen : (mkPhrase (v :: vs)).data.length + 2 ≤ n := by
          rw [hwd] at hfuel
          simp only [List.cons_append, List.length_append, List.length_cons] at hfuel
          omega
        cases n with
        | zero => omega
        | succ n2 =>
          have hsp : (' ' : Char).isWhitespace = true := by decide
          simp only [pysplitCharsF, hsp, if_true]
          rw [ih (by simp) (by
            rw [List.all_cons, Bool.and_eq_true] at hall
            exact hall.2) n2 (by omega)]
          simp [hwd]

theorem map_mk_data : ∀ l : List String, (l.map String.data).map String.mk = l := by
  intro l
  induction l with
  | nil => rfl
  | cons a l ih =>
    simp only [List.map_cons]
    rw [ih]

theorem pysplit_mkPhrase (ws : List String) (h : ws ≠ []) (hall : ws.all wordShaped = true) :
    pysplit (mkPhrase ws) = ws := by
  unfold pysplit pysplitChars
  rw [pysplitCharsF_mkPhrase ws h hall _ (by omega)]
  exact map_mk_data ws

theorem dict_to_tree_single (p r : String) (f : String → String) :
    dict_to_tree [(p, r)] f = some (pathTree ((pysplit p).map f) r) := by
  unfold dict_to_tree
  rw [List.foldlM_cons, insertEntry_emptyTree]
  rfl

theorem str_append_empty (s : String) : s ++ "" = s := by
  cases s with
  | mk d =>
    show String.mk (d ++ []) = String.mk d
    rw [List.append_nil]

theorem drop_head_shape (nws : List String) (d : ℕ) (hd : d < nws.length) :
    ∃ key tail, nws.drop d = key :: tail ∧ nws.drop (d + 1) = tail := by
  rcases h : nws.drop d with _ | ⟨key, tail⟩
  · rw [List.drop_eq_nil_iff] at h
    omega
  · refine ⟨key, tail, rfl, ?_⟩
    rw [← List.drop_drop 1 d nws, h]
    rfl

theorem zCount_append (a b : List State) : zCount (a ++ b) = zCount a + zCount b := by
  unfold zCount
  exact List.countP_append _ _ _

theorem zCount_pos_of_mem (S : List State) (st : State) (h : st ∈ S) (h0 : st.i = 0) :
    1 ≤ zCount S := by
  unfold zCount
  have hp : 0 < S.countP (fun s => s.i == 0) := List.countP_pos_iff.mpr ⟨st, h, by simp [h0]⟩
  omega

theorem advanceStep_some_entry (c : ℚ) (i : ℕ) (word : String) (st : State)
    (acc : List State × List Match) (k : String) (sub : Tree) :
    advanceStep c i word st acc (k, some sub) =
      match word_matches c k word with
      | none => some acc
      | some rv => if rv = 0 then some acc
          else some (acc.1 ++ [⟨st.i, some sub, qmul st.score rv⟩], acc.2) := by
  unfold advanceStep State.update
  rcases word_matches c k word with _ | rv
  · rfl
  · by_cases hr : rv = 0 <;> simp [hr]

theorem advanceState_single (c : ℚ) (i : ℕ) (word : String) (acc : List State × List Match)
    (st : State) (k : String) (sub : Tree)
    (h : st.d = some (Tree.mk [(k, some sub)])) :
    advanceState c i word acc st =
      match word_matches c k word with
      | none => some acc
      | some rv => if rv = 0 then some acc
          else some (acc.1 ++ [⟨st.i, some sub, qmul st.score rv⟩], acc.2) := by
  unfold advanceState
  rw [h]
  show List.foldlM (advanceStep c i word st) acc [(k, some sub)] = _
  rw [List.foldlM_cons, advanceStep_some_entry]
  rcases word_matches c k word with _ | rv
  · rfl
  · by_cases hr : rv = 0 <;> simp [hr]

theorem c1_advanceState (c : ℚ) (hc : c ≤ 1) (nws : List String) (r : String)
    (t : ℕ) (tok : String) (htok : nws.drop t = tok :: nws.drop (t + 1))
    (ht : t < nws.length) (st : State) (hst : c1Inv nws r t st)
    (acc : List State × List Match) :
    ∃ S2, advanceState c t tok acc st = some (acc.1 ++ S2, acc.2) ∧
      (∀ y ∈ S2, c1Inv nws r (t + 1) y) ∧
      zCount S2 ≤ zCount [st] ∧
      (st = c1Canon nws r t → c1Canon nws r (t + 1) ∈ S2) := by
  obtain ⟨d, hd1, hdt, hnode, hzero⟩ := hst
  obtain ⟨key, tail, hk1, hk2⟩ := drop_head_shape nws d (by omega)
  have hnode2 : st.d = some (Tree.mk [(key, some (pathTree tail r))]) := by
    rw [hnode, hk1]
    rfl
  have hcankey : st.i = 0 → key = tok ∧ st.score = 1 ∧ d = t := by
    intro h0
    obtain ⟨hs1, hdt2⟩ := hzero h0
    rw [hdt2, htok] at hk1
    injection hk1 with e1 e2
    exact ⟨e1.symm, hs1, hdt2⟩
  have heval := advanceState_single c t tok acc st key (pathTree tail r) hnode2
  rcases hwm : word_matches c key tok with _ | rv
  · simp only [hwm] at heval
    refine ⟨[], by simpa using heval, by simp, by simp [zCount], ?_⟩
    intro hcan
    obtain ⟨hkey, hsc, hdt2⟩ := hcankey (by rw [hcan]; rfl)
    rw [hkey] at hwm
    rw [word_matches_self tok hc] at hwm
    cases hwm
  · simp only [hwm] at heval
    by_cases hr : rv = 0
    · rw [if_pos hr] at heval
      refine ⟨[], by simpa using heval, by simp, by simp [zCount], ?_⟩
      intro hcan
      obtain ⟨hkey, hsc, hdt2⟩ := hcankey (by rw [hcan]; rfl)
      rw [hkey] at hwm
      rw [word_matches_self tok hc] at hwm
      injection hwm with hv
      rw [← hv] at hr
      exact absurd hr one_ne_zero
    · rw [if_neg hr] at heval
      refine ⟨[⟨st.i, some (pathTree tail r), qmul st.score rv⟩], heval, ?_, ?_, ?_⟩
      · intro y hy
        rw [List.mem_singleton] at hy
        subst hy
        refine ⟨d + 1, by omega, by simpa using by omega, by rw [hk2], ?_⟩
        intro h0
        obtain ⟨hkey, hsc, hdt2⟩ := hcankey h0
        rw [hkey] at hwm
        rw [word_matches_self tok hc] at hwm
        injection hwm with hv
        constructor
        · rw [hsc, ← hv, qmul_eq, one_mul]
        · omega
      · simp [zCount, List.countP_cons]
      · intro hcan
        have h0 : st.i = 0 := by rw [hcan]; rfl
        obtain ⟨hkey, hsc, hdt2⟩ := hcankey h0
        rw [hkey] at hwm
        rw [word_matches_self tok hc] at hwm
        injection hwm with hv
        rw [List.mem_singleton]
        symm
        show State.mk st.i (some (pathTree tail r)) (qmul st.score rv) = c1Canon nws r (t + 1)
        rw [hdt2] at hk2
        unfold c1Canon
        rw [h0, hk2, hsc, ← hv, qmul_eq, one_mul]

theorem zCount_cons (st : State) (S : List State) :
    zCount (st :: S) = zCount [st] + zCount S := by
  have h := zCount_append [st] S
  simpa using h

theorem c1_fold (c : ℚ) (hc : c ≤ 1) (nws : List String) (r : String)
    (t : ℕ) (tok : String) (htok : nws.drop t = tok :: nws.drop (t + 1))
    (ht : t < nws.length) :
    ∀ (S : List State) (acc : List State × List Match),
      (∀ st ∈ S, c1Inv nws r t st) →
      (∀ y ∈ acc.1, c1Inv nws r (t + 1) y) →
      ∃ S2, S.foldlM (advanceState c t tok) acc = some (S2, acc.2) ∧
        (∀ y ∈ S2, c1Inv nws r (t + 1) y) ∧
        zCount S2 ≤ zCount acc.1 + zCount S ∧
        (∀ y ∈ acc.1, y ∈ S2) ∧
        (c1Canon nws r t ∈ S → c1Canon nws r (t + 1) ∈ S2) := by
  intro S
  induction S with
  | nil =>
    intro acc hS hacc
    exact ⟨acc.1, by simp, hacc, by simp [zCount], fun y hy => hy, by simp⟩
  | cons st S ih =>
    intro acc hS hacc
    obtain ⟨S1, h1, h2, h3, h4⟩ := c1_advanceState c hc nws r t tok htok ht st
      (hS st (by simp)) acc
    rw [List.foldlM_cons, h1]
    obtain ⟨S2, g1, g2, g3, g4, g5⟩ := ih (acc.1 ++ S1, acc.2)
      (fun st2 hst2 => hS st2 (by simp [hst2]))
      (by
        intro y hy
        rcases List.mem_append.mp hy with hy2 | hy2
        · exact hacc y hy2
        · exact h2 y hy2)
    refine ⟨S2, g1, g2, ?_, ?_, ?_⟩
    · have g3b : zCount S2 ≤ zCount (acc.1 ++ S1) + zCount S := g3
      have e1 := zCount_append acc.1 S1
      have e2 := zCount_cons st S
      omega
    · intro y hy
      exact g4 y (List.mem_append_left _ hy)
    · intro hmem
      rcases List.mem_cons.mp hmem with hmem2 | hmem2
      · exact g4 _ (List.mem_append_right _ (h4 hmem2.symm))
      · exact g5 hmem2

theorem rootScan_single (c : ℚ) (i : ℕ) (word : String) (n1 : String) (sub : Tree)
    (ms : List Match) :
    rootScan c (Tree.mk [(n1, some sub)]) i word ([], ms) =
      (match word_matches c n1 word with
       | none => ([], ms)
       | some rv => if rv = 0 then ([], ms) else ([⟨i, some sub, rv⟩], ms)) := by
  unfold rootScan
  show List.foldl (rootStep c i word) ([], ms) [(n1, some sub)] = _
  rw [List.foldl_cons, List.foldl_nil]
  unfold rootStep
  rcases word_matches c n1 word with _ | rv
  · simp
  · by_cases hr : rv = 0 <;> simp [hr]

theorem c1_consume (c : ℚ) (hc : c ≤ 1) (nws : List String) (r : String)
    (t : ℕ) (tok : String) (htok : nws.drop t = tok :: nws.drop (t + 1))
    (ht : t < nws.length) (n1 : String) (ntail : List String) (hn : nws = n1 :: ntail)
    (S : List State) (ms : List Match)
    (hS : ∀ st ∈ S, c1Inv nws r t st)
    (hz : zCount S ≤ 1)
    (hS0 : t = 0 → S = [])
    (hcan : 0 < t → c1Canon nws r t ∈ S) :
    ∃ S2, consume c (pathTree nws r) t tok S ms = some (S2, ms) ∧
      (∀ y ∈ S2, c1Inv nws r (t + 1) y) ∧
      zCount S2 ≤ 1 ∧
      c1Canon nws r (t + 1) ∈ S2 := by
  have hroot : pathTree nws r = Tree.mk [(n1, some (pathTree ntail r))] := by
    rw [hn]
    rfl
  have hdrop1 : nws.drop 1 = ntail := by
    rw [hn]
    rfl
  unfold consume
  rw [hroot, rootScan_single]
  by_cases ht0 : t = 0
  · subst ht0
    have he : n1 = tok := by
      have h2 : nws = tok :: nws.drop (0 + 1) := by simpa using htok
      rw [hn] at h2
      injection h2 with e1 e2
    subst he
    rw [hS0 rfl]
    simp only [word_matches_self n1 hc, List.foldlM_nil]
    rw [if_neg one_ne_zero]
    refine ⟨[⟨0, some (pathTree ntail r), 1⟩], rfl, ?_, ?_, ?_⟩
    · intro y hy
      rw [List.mem_singleton] at hy
      subst hy
      exact ⟨1, le_refl 1, rfl, by rw [hdrop1], fun _ => ⟨rfl, rfl⟩⟩
    · simp [zCount, List.countP_cons]
    · rw [List.mem_singleton]
      unfold c1Canon
      rw [show (0 + 1 : ℕ) = 1 from rfl, hdrop1]
  · have hinv0 : ∀ rv : ℚ,
        c1Inv nws r (t + 1) ⟨t, some (pathTree ntail r), rv⟩ := by
      intro rv
      exact ⟨1, le_refl 1, rfl, by rw [hdrop1], fun h0 => absurd h0 ht0⟩
    rcases hwm : word_matches c n1 tok with _ | rv
    · simp only []
      obtain ⟨S2, g1, g2, g3, g4, g5⟩ := c1_fold c hc nws r t tok htok ht S ([], ms)
        hS (by simp)
      refine ⟨S2, g1, g2, ?_, g5 (hcan (by omega))⟩
      have g3b : zCount S2 ≤ 0 + zCount S := g3
      omega
    · by_cases hr : rv = 0
      · simp only [hr, if_pos rfl]
        obtain ⟨S2, g1, g2, g3, g4, g5⟩ := c1_fold c hc nws r t tok htok ht S ([], ms)
          hS (by simp)
        refine ⟨S2, g1, g2, ?_, g5 (hcan (by omega))⟩
        have g3b : zCount S2 ≤ 0 + zCount S := g3
        omega
      · simp only [if_neg hr]
        obtain ⟨S2, g1, g2, g3, g4, g5⟩ := c1_fold c hc nws r t tok htok ht S
          ([⟨t, some (pathTree ntail r), rv⟩], ms) hS
          (by
            intro y hy
            have hy2 : y ∈ [(⟨t, some (pathTree ntail r), rv⟩ : State)] := hy
            rw [List.mem_singleton] at hy2
            subst hy2
            exact hinv0 rv)
        refine ⟨S2, g1, g2, ?_, g5 (hcan (by omega))⟩
        have hz0 : zCount [(⟨t, some (pathTree ntail r), rv⟩ : State)] = 0 := by
          simp [zCount, List.countP_cons, ht0]
        have g3b : zCount S2 ≤
            zCount [(⟨t, some (pathTree ntail r), rv⟩ : State)] + zCount S := g3
        omega

theorem c1_loop (c : ℚ) (hc : c ≤ 1) (f : String → String) (r : String) (ws : List String)
    (hws : ws ≠ []) :
    ∀ (rest : List String) (t : ℕ) (S : List State) (ms : List Match),
      ws.drop t = rest →
      t + rest.length = ws.length →
      (∀ st ∈ S, c1Inv (ws.map f) r t st) →
      zCount S ≤ 1 →
      (t = 0 → S = []) →
      (0 < t → c1Canon (ws.map f) r t ∈ S) →
      ∃ S2, runConsume c (pathTree (ws.map f) r) f t rest (S, ms) = some (S2, ms) ∧
        (∀ st ∈ S2, c1Inv (ws.map f) r ws.length st) ∧
        zCount S2 ≤ 1 ∧
        c1Canon (ws.map f) r ws.length ∈ S2 := by
  intro rest
  induction rest with
  | nil =>
    intro t S ms hdrop hsum hS hz hS0 hcan
    have ht : t = ws.length := by simpa using hsum
    subst ht
    refine ⟨S, rfl, hS, hz, hcan ?_⟩
    have hp : 0 < ws.length := List.length_pos.mpr hws
    omega
  | cons w rest ih =>
    intro t S ms hdrop hsum hS hz hS0 hcan
    have ht : t < ws.length := by
      simp only [List.length_cons] at hsum
      omega
    obtain ⟨n1, ntail, hm⟩ : ∃ n1 ntail, ws.map f = n1 :: ntail := by
      rcases h : ws.map f with _ | ⟨a, b⟩
      · exact absurd (List.map_eq_nil_iff.mp h) hws
      · exact ⟨a, b, rfl⟩
    have hdrop2 : ws.drop (t + 1) = rest := by
      rw [← List.drop_drop 1 t ws, hdrop]
      rfl
    have htok : (ws.map f).drop t = f w :: (ws.map f).drop (t + 1) := by
      rw [← List.map_drop, ← List.map_drop, hdrop, hdrop2]
      rfl
    have ht2 : t < (ws.map f).length := by
      rw [List.length_map]
      exact ht
    obtain ⟨S2, hcons, hinv, hz2, hcanon⟩ := c1_consume c hc (ws.map f) r t (f w) htok
      ht2 n1 ntail hm S ms hS hz hS0 hcan
    simp only [runConsume, hcons]
    obtain ⟨S3, g1, g2, g3, g4⟩ := ih (t + 1) S2 ms hdrop2
      (by
        simp only [List.length_cons] at hsum
        omega)
      hinv hz2 (fun h => absurd h (by omega)) (fun _ => hcanon)
    exact ⟨S3, g1, g2, g3, g4⟩

theorem c1_flush (nws : List String) (r : String) (k : ℕ) (hk : k = nws.length) :
    ∀ (S : List State) (ms : List Match),
      (∀ st ∈ S, c1Inv nws r k st) →
      flush k S ms = some (ms ++ List.replicate (zCount S) (Match.mk 0 k r 1)) := by
  intro S
  induction S with
  | nil =>
    intro ms _
    show some ms = _
    simp [zCount]
  | cons st S ih =>
    intro ms hS
    obtain ⟨d, hd1, hdt, hnode, hzero⟩ := hS st (by simp)
    unfold flush
    rw [List.foldlM_cons]
    by_cases h0 : st.i = 0
    · obtain ⟨hsc, hdk⟩ := hzero h0
      have hnil : nws.drop d = [] := by
        rw [hdk, hk]
        exact List.drop_length nws
      have hnode2 : st.d = some (Tree.mk [(r, none)]) := by
        rw [hnode, hnil]
        rfl
      have hfs : flushState k ms st = some (ms ++ [Match.mk 0 k r 1]) := by
        unfold flushState
        rw [hnode2]
        show some (List.foldl _ ms [(r, none)]) = _
        rw [List.foldl_cons, List.foldl_nil]
        simp [State.as_match, h0, hsc]
      rw [hfs]
      show List.foldlM (flushState k) (ms ++ [Match.mk 0 k r 1]) S = _
      rw [show List.foldlM (flushState k) (ms ++ [Match.mk 0 k r 1]) S =
          flush k S (ms ++ [Match.mk 0 k r 1]) from rfl]
      rw [ih (ms ++ [Match.mk 0 k r 1]) (fun st2 h2 => hS st2 (List.mem_cons_of_mem st h2))]
      congr 1
      rw [show zCount (st :: S) = zCount S + 1 from by simp [zCount, List.countP_cons, h0]]
      rw [List.replicate_succ, ← List.append_cons]
    · have hdk : d < nws.length := by omega
      obtain ⟨key, tail, hk1, hk2⟩ := drop_head_shape nws d hdk
      have hnode2 : st.d = some (Tree.mk [(key, some (pathTree tail r))]) := by
        rw [hnode, hk1]
        rfl
      have hfs : flushState k ms st = some ms := by
        unfold flushState
        rw [hnode2]
        show some (List.foldl _ ms [(key, some (pathTree tail r))]) = _
        rw [List.foldl_cons, List.foldl_nil]
        simp
      rw [hfs]
      show List.foldlM (flushState k) ms S = _
      rw [show List.foldlM (flushState k) ms S = flush k S ms from rfl]
      rw [ih ms (fun st2 h2 => hS st2 (List.mem_cons_of_mem st h2))]
      congr 2
      simp [zCount, List.countP_cons, h0]

/-- C1 counterexample: the claim promises `process(phrase) = replacement`
for *every* mapping and *every* entry.  Two refutations, both at cutoff
`mkRat 17 20 = 0.85`:  (1) the phrase `a-b` trie-keys as the single
normalized word `ab`, but as *input* it tokenizes into the two words
`a`, `b`, neither similar enough to `ab`, so `process` returns the input
unchanged instead of `X`;  (2) with entries `a -> X` and `a a -> Y`, the
entry `a` fires on both tokens of the phrase `a a` and the greedy
selection prefers the earlier-emitted one-token matches, so
`process("a a") = "X X"`, not `Y`. -/
theorem C1_counterexample :
    process [("a-b", "X")] defaultNormalize (mkRat 17 20) "a-b" = some "a-b" ∧
      ("a-b" : String) ≠ "X" ∧
      process [("a", "X"), ("a a", "Y")] defaultNormalize (mkRat 17 20) "a a" = some "X X" ∧
      ("X X" : String) ≠ "Y" :=
  ⟨by decide, by decide, by decide, by decide⟩

/-- C1 (amended): the exact-match guarantee holds for a *single-entry*
mapping whose phrase is a space-joined sequence of nonempty words made of
word characters (so the build-time `str.split()` and the run-time regex
tokenizer agree), for every normalizer and every cutoff at most 1:
processing the phrase itself yields exactly the replacement, because every
per-word self-similarity ratio is 1.  In general the guarantee fails: the
two tokenizers can disagree on a phrase, and other entries of the mapping
can shadow the phrase (see the counterexample). -/
theorem C1_single_entry_exact_match (ws : List String) (r : String)
    (f : String → String) (c : ℚ) (hws : ws ≠ [])
    (hall : ws.all wordShaped = true) (hc : c ≤ 1) :
    process [(mkPhrase ws, r)] f c (mkPhrase ws) = some r := by
  have hpairs : wordsSeps (mkPhrase ws).data = pairsOf ws := wordsSeps_mkPhrase ws hws hall
  have hwords : (wordsSeps (mkPhrase ws).data).map Prod.fst = ws := by
    rw [hpairs]
    exact pairsOf_fst ws
  have hdict : dict_to_tree [(mkPhrase ws, r)] f = some (pathTree (ws.map f) r) := by
    rw [dict_to_tree_single, pysplit_mkPhrase ws hws hall]
  obtain ⟨S2, hrun, hinv, hz2, hcanon⟩ := c1_loop c hc f r ws hws ws 0 [] []
    rfl (by omega) (by simp) (by simp [zCount]) (fun _ => rfl)
    (fun h => absurd h (by omega))
  have hzc : zCount S2 = 1 := by
    have h1 : 1 ≤ zCount S2 :=
      zCount_pos_of_mem S2 (c1Canon (ws.map f) r ws.length) hcanon rfl
    omega
  have hflush : flush ws.length S2 [] = some [Match.mk 0 ws.length r 1] := by
    have hk : ws.length = (ws.map f).length := (List.length_map ws f).symm
    have h2 := c1_flush (ws.map f) r ws.length hk S2 [] hinv
    rw [hzc] at h2
    simpa using h2
  have hhelp : helperProcess c (pathTree (ws.map f) r) f ws =
      some [Match.mk 0 ws.length r 1] := by
    unfold helperProcess
    simp only [hrun]
    exact hflush
  have hsel : select_matches [Match.mk 0 ws.length r 1] = [Match.mk 0 ws.length r 1] := rfl
  have happ : applyMatches [Match.mk 0 ws.length r 1] ws ((pairsOf ws).map Prod.snd) =
      ([r], [""]) := by
    unfold applyMatches
    rw [List.foldr_cons, List.foldr_nil]
    show (ws.take 0 ++ r :: ws.drop ws.length,
      ((pairsOf ws).map Prod.snd).take 0 ++
        ((pairsOf ws).map Prod.snd).drop (ws.length - 1)) = ([r], [""])
    rw [List.take_zero, List.take_zero, List.drop_length, pairsOf_snd_last ws hws]
    rfl
  have hjoin : interleaveJoin [r] [""] = r := by
    show r ++ "" ++ "" = r
    rw [str_append_empty, str_append_empty]
  unfold process
  simp only [hdict, hpairs, pairsOf_fst ws, hhelp, hsel, happ]
  exact congrArg some hjoin

/-- Witness for C1 (amended) at the concrete phrase `a b`. -/
theorem C1_single_entry_exact_match_witness :
    (["a", "b"] : List String) ≠ [] ∧ (["a", "b"] : List String).all wordShaped = true ∧
      (mkRat 17 20 : ℚ) ≤ 1 ∧
      process [(mkPhrase ["a", "b"], "X")] defaultNormalize (mkRat 17 20)
        (mkPhrase ["a", "b"]) = some "X" :=
  ⟨by decide, by decide, by decide,
    C1_single_entry_exact_match ["a", "b"] "X" defaultNormalize (mkRat 17 20)
      (by decide) (by decide) (by decide)⟩

/-- C9: the staged scorer equals the direct threshold test: the
character-frequency bound (`quick_ratio`) and the length bound
(`real_quick_ratio`) are genuine upper bounds on the exact ratio, so
`word_matches` returns the exact ratio exactly when that ratio reaches the
cutoff, and `none` otherwise — no pair whose exact ratio reaches the
cutoff is ever rejected by the cheap bounds. -/
theorem C9_scorer_refinement (c : ℚ) (chunk word : String) :
    ratio' chunk word ≤ quick_ratio' chunk word ∧
      quick_ratio' chunk word ≤ real_quick_ratio' chunk word ∧
      word_matches c chunk word =
        (if c ≤ ratio' chunk word then some (ratio' chunk word) else none) :=
  ⟨ratio'_le_quick chunk word, quick_le_real_quick chunk word, word_matches_eq c chunk word⟩

end Fuzzy
